import Mathlib

/-!
Shallow embedding of curate.cpp (a personal link-curation CLI) for checking its
natural-language specification.

Conventions of the embedding:
- C++ std::string values are modelled as List Char (abbreviated Str); the
  program only manipulates bytes, and for the ASCII data manipulated here a
  list of characters is byte-faithful.
- std::chrono::sys_days is a count of days since 1970-01-01, modelled as Int.
  The calendar conversions year_month_day <-> sys_days are the civil-calendar
  algorithms used by libstdc++ (era/year-of-era arithmetic with the constants
  146097, 36524, 1460, 153), translated literally; C++ integer division
  truncates toward zero, modelled by cdiv below.
- File contents are modelled as Str; reading with getline is modelled by
  getLines; fallible I/O is modelled by explicit success flags or Option.
- std::sort is modelled by the libstdc++ introsort implementation
  (median-of-three quickselect loop with depth limit and threshold 16,
  followed by insertion sort).  The depth-limit fallback (heapsort in
  libstdc++) is modelled as an in-place sort of the affected range; it is
  never reached on the inputs evaluated here and the claims never depend on
  the order of equal elements it produces.
-/

/-! ### Characters and strings -/

abbrev Str := List Char

/-- Characters of a Lean string literal, used to write Str constants. -/
def strL (s : String) : Str := s.data

/-- Model of isspace in the C locale (space, tab, newline, vertical tab,
form feed, carriage return). -/
def isSpaceC (c : Char) : Bool :=
  c = ' ' || c = '\t' || c = '\n' || c = '\x0b' || c = '\x0c' || c = '\x0d'

/-- Model of the trim utility of curate.cpp: strip leading and trailing
isspace characters. -/
def trim (s : Str) : Str :=
  ((s.dropWhile isSpaceC).reverse.dropWhile isSpaceC).reverse

/-- Worker for splitTabs: cur accumulates the current field in reverse. -/
def splitTabsAux : Str → Str → List Str
  | [], cur => [cur.reverse]
  | c :: rest, cur =>
      if c = '\t' then cur.reverse :: splitTabsAux rest []
      else splitTabsAux rest (c :: cur)

/-- Model of splitTabs of curate.cpp: split a line at tab characters; always
returns at least one (possibly empty) field. -/
def splitTabs (line : Str) : List Str := splitTabsAux line []

/-- Model of joinTabs of curate.cpp: join fields with single tabs. -/
def joinTabs (cols : List Str) : Str :=
  match cols with
  | [] => []
  | c :: rest => c ++ rest.flatMap (fun s => '\t' :: s)

/-- Worker for getLines: acc accumulates the current line in reverse. -/
def linesAux : Str → Str → List Str
  | [], acc => [acc.reverse]
  | c :: rest, acc =>
      if c = '\n' then acc.reverse :: (if rest = [] then [] else linesAux rest [])
      else linesAux rest (c :: acc)

/-- Model of reading a stream with getline: lines are terminated by a newline
or by the end of the input; an empty input yields no lines. -/
def getLines (content : Str) : List Str :=
  if content = [] then [] else linesAux content []

/-- Worker for splitTags: whitespace-delimited tokens, istringstream style. -/
def wordsAux : Str → Str → List Str
  | [], acc => if acc = [] then [] else [acc.reverse]
  | c :: rest, acc =>
      if isSpaceC c then
        (if acc = [] then wordsAux rest [] else acc.reverse :: wordsAux rest [])
      else wordsAux rest (c :: acc)

/-- Model of splitTags of curate.cpp: split a tag string at whitespace runs. -/
def splitTags (s : Str) : List Str := wordsAux s []

/-! ### Decimal printing (model of ostream output of integers) -/

/-- Decimal digit character (the byte 48 + k that operator<< emits). -/
def digitCharC (k : Nat) : Char := Char.ofNat (48 + k)

/-- Decimal digits of a natural number, least significant first; the fuel
argument only bounds the recursion and never binds for fuel greater than n. -/
def natDigitsRevF : Nat → Nat → List Nat
  | 0, _ => []
  | f + 1, n => if n = 0 then [] else n % 10 :: natDigitsRevF f (n / 10)

/-- Decimal representation of a natural number as emitted by operator<<. -/
def natToStr (n : Nat) : Str :=
  if n = 0 then ['0'] else ((natDigitsRevF (n + 1) n).map digitCharC).reverse

/-- Decimal representation of an int as emitted by operator<<. -/
def intToStr (i : Int) : Str :=
  if i < 0 then '-' :: natToStr i.natAbs else natToStr i.natAbs

/-- Model of printing with setw(2) and setfill of a zero: pad the decimal form
on the left with a zero when it is shorter than two characters. -/
def pad2 (n : Int) : Str :=
  if (intToStr n).length < 2 then '0' :: intToStr n else intToStr n

/-! ### Civil calendar arithmetic (the sys_days conversions of libstdc++) -/

/-- C integer division truncates toward zero (for the positive divisors used
here). -/
def cdiv (a b : Int) : Int := if 0 ≤ a then a / b else -(-a / b)

/-- Year adjusted so that the year starts in March: y -= (m <= 2). -/
def dfc_yAdj (y m : Int) : Int := y - (if m ≤ 2 then 1 else 0)

/-- Era (400-year cycle) of an adjusted year: (y >= 0 ? y : y - 399) / 400. -/
def dfc_era (ya : Int) : Int := cdiv (if 0 ≤ ya then ya else ya - 399) 400

/-- Year of era of an adjusted year: y - era * 400, in [0, 399]. -/
def dfc_yoe (y m : Int) : Int := dfc_yAdj y m - dfc_era (dfc_yAdj y m) * 400

/-- Days since 1970-01-01 of a civil date: the days-from-civil algorithm used
by the year_month_day to sys_days conversion. -/
def days_from_civil (y m d : Int) : Int :=
  dfc_era (dfc_yAdj y m) * 146097 + dfc_yoe y m * 365 + cdiv (dfc_yoe y m) 4
    - cdiv (dfc_yoe y m) 100
    + cdiv (153 * (if 2 < m then m - 3 else m + 9) + 2) 5 + d - 1
    - 719468

/-- Era of a day count: (z >= 0 ? z : z - 146096) / 146097 after rebasing to
0000-03-01. -/
def cfd_era (z : Int) : Int :=
  cdiv (if 0 ≤ z + 719468 then z + 719468 else z + 719468 - 146096) 146097

/-- Day of era, in [0, 146096]. -/
def cfd_doe (z : Int) : Int := z + 719468 - cfd_era z * 146097

/-- Year of era: (doe - doe/1460 + doe/36524 - doe/146096) / 365. -/
def cfd_yoe (z : Int) : Int :=
  cdiv (cfd_doe z - cdiv (cfd_doe z) 1460 + cdiv (cfd_doe z) 36524
        - cdiv (cfd_doe z) 146096) 365

/-- Day of year (March-based): doe - (365*yoe + yoe/4 - yoe/100). -/
def cfd_doy (z : Int) : Int :=
  cfd_doe z - (365 * cfd_yoe z + cdiv (cfd_yoe z) 4 - cdiv (cfd_yoe z) 100)

/-- March-based month index: (5*doy + 2) / 153, in [0, 11]. -/
def cfd_mp (z : Int) : Int := cdiv (5 * cfd_doy z + 2) 153

/-- Civil month: mp < 10 ? mp + 3 : mp - 9. -/
def cfd_m (z : Int) : Int := cfd_mp z + (if cfd_mp z < 10 then 3 else -9)

/-- Civil date of a day count: the civil-from-days algorithm used by the
sys_days to year_month_day conversion; returns (year, month, day). -/
def civil_from_days (z : Int) : Int × Int × Int :=
  (cfd_yoe z + cfd_era z * 400 + (if cfd_m z ≤ 2 then 1 else 0),
   cfd_m z,
   cfd_doy z - cdiv (153 * cfd_mp z + 2) 5 + 1)

/-! ### Date parsing and formatting (parseISODate, fmtDate) -/

/-- Decimal digit test, model of the regex character class of digits. -/
def isDigitC (c : Char) : Bool := 48 ≤ c.toNat && c.toNat ≤ 57

/-- Numeric value of a digit character. -/
def digitVal (c : Char) : Int := (c.toNat : Int) - 48

/-- Year group value (the stoi of the four-digit capture). -/
def parseY (c1 c2 c3 c4 : Char) : Int :=
  1000 * digitVal c1 + 100 * digitVal c2 + 10 * digitVal c3 + digitVal c4

/-- Two-digit group value (the stoi of a month or day capture). -/
def parse2 (a b : Char) : Int := 10 * digitVal a + digitVal b

/-- Model of parseISODate of curate.cpp: the string must have the exact shape
of four digits, a dash, two digits, a dash and two digits; the month must be
in [1, 12] and the day in [1, 31]; finally the date must survive the round
trip through sys_days unchanged (rejecting such dates as Feb 30). -/
def parseISODate (s : Str) : Option Int :=
  match s with
  | [c1, c2, c3, c4, '-', m1, m2, '-', d1, d2] =>
      if isDigitC c1 && isDigitC c2 && isDigitC c3 && isDigitC c4 &&
         isDigitC m1 && isDigitC m2 && isDigitC d1 && isDigitC d2 then
        if parse2 m1 m2 < 1 || 12 < parse2 m1 m2 || parse2 d1 d2 < 1 ||
           31 < parse2 d1 d2 then none
        else if civil_from_days
            (days_from_civil (parseY c1 c2 c3 c4) (parse2 m1 m2) (parse2 d1 d2)) =
            (parseY c1 c2 c3 c4, parse2 m1 m2, parse2 d1 d2) then
          some (days_from_civil (parseY c1 c2 c3 c4) (parse2 m1 m2) (parse2 d1 d2))
        else none
      else none
  | _ => none

/-- Model of fmtDate of curate.cpp: print the year with operator<< on int (no
padding), then the month and day with setw(2) and a zero fill. -/
def fmtDate (z : Int) : Str :=
  intToStr (civil_from_days z).1 ++ '-' :: pad2 (civil_from_days z).2.1
    ++ '-' :: pad2 (civil_from_days z).2.2

/-! ### ISO week arithmetic -/

/-- Model of the weekday of a day count, with the chrono encoding Sunday = 0
through Saturday = 6 (1970-01-01 was a Thursday, 4). -/
def weekdayFromDays (z : Int) : Int := (z + 4) % 7

/-- Days since the Monday of the week of z: (wd == 0 ? 6 : wd - 1). -/
def daysSinceMonday (z : Int) : Int :=
  if weekdayFromDays z = 0 then 6 else weekdayFromDays z - 1

/-- Monday of the week containing z. -/
def isoMonday (z : Int) : Int := z - daysSinceMonday z

/-- ISO year of z: the civil year of the Thursday of the week of z. -/
def isoYearOf (z : Int) : Int := (civil_from_days (isoMonday z + 3)).1

/-- Monday of ISO week 1 of year y: the Monday of the week of January 4. -/
def week1Monday (y : Int) : Int :=
  days_from_civil y 1 4 - daysSinceMonday (days_from_civil y 1 4)

/-- Model of the ISOWeek record of curate.cpp. -/
structure ISOWeek where
  year : Int
  week : Int
  monday : Int
  sunday : Int
deriving DecidableEq, Repr

/-- Model of isoWeekFromDate of curate.cpp. -/
def isoWeekFromDate (z : Int) : ISOWeek :=
  ⟨isoYearOf z,
   1 + cdiv (isoMonday z - week1Monday (isoYearOf z)) 7,
   isoMonday z,
   isoMonday z + 6⟩

/-- Model of weekBounds of curate.cpp: Monday of week 1 via the Jan 4 rule,
offset by 7 * (w - 1) days. -/
def weekBounds (y w : Int) : ISOWeek :=
  ⟨y, w, week1Monday y + 7 * (w - 1), week1Monday y + 7 * (w - 1) + 6⟩

/-! ### Record model and inbox I/O -/

/-- Model of the Rec struct of curate.cpp: one record of the 5-column store. -/
structure Rec where
  date : Int
  kind : Str
  url : Str
  title : Str
  tags : Str
deriving DecidableEq, Repr

/-- Default record value used by positional helpers of the sort model. -/
def defaultRec : Rec := ⟨0, [], [], [], []⟩

/-- Model of the per-line body of the loadInbox loop: a blank line is skipped,
a line whose (trimmed) first field fails date parsing is skipped, otherwise
missing trailing fields default to the empty string except the kind, which
defaults to the generic label link.  The first field always exists because
splitTabs never returns an empty list, so the todayISO fallback of the source
is unreachable. -/
def parseLine (line : Str) : Option Rec :=
  if trim line = [] then none
  else
    match parseISODate (trim ((splitTabs line).getD 0 [])) with
    | none => none
    | some d =>
        some ⟨d, (splitTabs line).getD 1 (strL "link"), (splitTabs line).getD 2 [],
              (splitTabs line).getD 3 [], (splitTabs line).getD 4 []⟩

/-- Model of loadInbox of curate.cpp applied to the store content. -/
def loadInbox (content : Str) : List Rec := (getLines content).filterMap parseLine

/-- Line written by appendInbox for a record (without the trailing newline). -/
def appendLine (r : Rec) : Str :=
  joinTabs [fmtDate r.date, r.kind, r.url, r.title, r.tags]

/-- Model of appendInbox of curate.cpp on the store content: append the
tab-joined record and a newline. -/
def appendInbox (content : Str) (r : Rec) : Str := content ++ appendLine r ++ ['\n']

/-! ### Rule-based classifier -/

/-- Model of the Rule struct: a compiled case-insensitive regular expression
is modelled by its match predicate (does the pattern match anywhere in the
url, the regex-search semantics), together with the kind label. -/
structure Rule where
  re : Str → Bool
  kind : Str

/-- Model of detectKind of curate.cpp: the label of the first rule whose
pattern matches anywhere in the url, or the fallback label article. -/
def detectKind (rules : List Rule) (url : Str) : Str :=
  match rules with
  | [] => strL "article"
  | r :: rest => if r.re url then r.kind else detectKind rest url

/-! ### Tag normalization -/

/-- Model of isalpha in the C locale (ASCII letters only). -/
def isAlphaC (c : Char) : Bool := ('a' ≤ c && c ≤ 'z') || ('A' ≤ c && c ≤ 'Z')

/-- Model of isupper in the C locale. -/
def isUpperC (c : Char) : Bool := 'A' ≤ c && c ≤ 'Z'

/-- Model of toupper in the C locale. -/
def toUpperC (c : Char) : Char :=
  if 'a' ≤ c && c ≤ 'z' then Char.ofNat (c.toNat - 32) else c

/-- Model of isAllCapsWord of curate.cpp: has at least one letter and every
letter is uppercase. -/
def isAllCapsWord (s : Str) : Bool :=
  s.any isAlphaC && s.all (fun c => !isAlphaC c || isUpperC c)

/-- Model of normalizeTagDisplayOne of curate.cpp: trim, remember and strip a
leading hash, keep all-caps words unchanged, otherwise uppercase exactly the
first character, then reattach the hash. -/
def normalizeTagDisplayOne (t : Str) : Str :=
  match trim t with
  | [] => []
  | c :: rest =>
      let hadHash := c = '#'
      let t1 := if hadHash then rest else c :: rest
      if isAllCapsWord t1 then (if hadHash then '#' :: t1 else t1)
      else
        match t1 with
        | [] => if hadHash then ['#'] else []
        | c2 :: r2 => (if hadHash then ['#'] else []) ++ toUpperC c2 :: r2

/-- Worker for normalizeTagsForStorage: acc holds the cleaned tags in reverse;
the seen set of the source always equals the set of elements of acc. -/
def normTagsAux : List Str → List Str → List Str
  | [], acc => acc.reverse
  | t :: rest, acc =>
      match trim t with
      | [] => normTagsAux rest acc
      | c :: cs =>
          if (if c = '#' then c :: cs else '#' :: c :: cs) ∈ acc then
            normTagsAux rest acc
          else normTagsAux rest ((if c = '#' then c :: cs else '#' :: c :: cs) :: acc)

/-- Join strings with single space separators, ostringstream style. -/
def joinSpace (xs : List Str) : Str :=
  match xs with
  | [] => []
  | x :: rest => x ++ rest.flatMap (fun s => ' ' :: s)

/-- Model of normalizeTagsForStorage of curate.cpp: trim each raw tag, drop
empties, ensure a leading hash, deduplicate keeping first occurrences, join
with single spaces. -/
def normalizeTagsForStorage (raw : List Str) : Str := joinSpace (normTagsAux raw [])

/-- Record built by cmd_add of curate.cpp from its arguments (the date is the
parsed --date argument or today). -/
def cmd_add_record (rules : List Rule) (date : Int) (url title : Str)
    (tags : List Str) : Rec :=
  ⟨date, detectKind rules url, url, title, normalizeTagsForStorage tags⟩

/-! ### Sorting (the libstdc++ std::sort used by filterByDateRange)

The comparator of the source is (x, y) => x.date < y.date.  The threshold of
the introsort loop is 16 and the depth limit is 2 * floor(log2 n).  All
positional operations are guarded by bounds checks that never bind on the
ranges produced by real executions. -/

/-- Record comparator of filterByDateRange. -/
def recLt (x y : Rec) : Bool := x.date < y.date

/-- Positional read with the default record out of range. -/
def lget (l : List Rec) (i : Nat) : Rec := l.getD i defaultRec

/-- Swap of two positions of a list (no effect out of range). -/
def lswap (l : List Rec) (i j : Nat) : List Rec :=
  if i < l.length ∧ j < l.length then (l.set i (lget l j)).set j (lget l i) else l

/-- Model of the move-median-to-first step of libstdc++: place the median of
positions a, b, c at position res. -/
def moveMedianToFirst (l : List Rec) (res a b c : Nat) : List Rec :=
  if recLt (lget l a) (lget l b) then
    if recLt (lget l b) (lget l c) then lswap l res b
    else if recLt (lget l a) (lget l c) then lswap l res c
    else lswap l res a
  else if recLt (lget l a) (lget l c) then lswap l res a
  else if recLt (lget l b) (lget l c) then lswap l res c
  else lswap l res b

/-- Scan up while the element is less than the pivot. -/
def scanUp (l : List Rec) (pv : Rec) : Nat → Nat → Nat
  | i, 0 => i
  | i, fuel + 1 => if recLt (lget l i) pv then scanUp l pv (i + 1) fuel else i

/-- Scan down while the pivot is less than the element. -/
def scanDown (l : List Rec) (pv : Rec) : Nat → Nat → Nat
  | j, 0 => j
  | j, fuel + 1 => if recLt pv (lget l j) then scanDown l pv (j - 1) fuel else j

/-- Model of the unguarded partition loop of libstdc++ around the pivot value
pv; returns the partition point. -/
def upart (pv : Rec) : List Rec → Nat → Nat → Nat → List Rec × Nat
  | l, first, _, 0 => (l, first)
  | l, first, last, fuel + 1 =>
      let f := scanUp l pv first (l.length + 2)
      let j := scanDown l pv (last - 1) (l.length + 2)
      if f < j then upart pv (lswap l f j) (f + 1) j fuel else (l, f)

/-- Model of the partition step of the introsort loop: median of first + 1,
middle and last - 1 moved to the front as pivot, then unguarded partition of
the tail. -/
def partitionPivot (l : List Rec) (lo hi : Nat) : List Rec × Nat :=
  let mid := lo + (hi - lo) / 2
  let l1 := moveMedianToFirst l lo (lo + 1) mid (hi - 1)
  upart (lget l1 lo) l1 (lo + 1) hi (l1.length + 2)

/-- Insertion step: insert x into the sorted list before the first strictly
greater element (the net effect of the linear insert of libstdc++). -/
def insertByDate (x : Rec) : List Rec → List Rec
  | [] => [x]
  | y :: ys => if recLt x y then x :: y :: ys else y :: insertByDate x ys

/-- Insertion sort, the net effect of the final pass of libstdc++ (guarded
insertion sort of the first 16 positions, unguarded for the rest: together a
left-to-right insertion sort of the whole range). -/
def insSortByDate (l : List Rec) : List Rec :=
  l.foldl (fun acc x => insertByDate x acc) []

/-- Sort of the subrange [lo, hi) of l, used for the depth-limit fallback of
the introsort loop (heapsort in libstdc++, modelled as a sort of the range;
never reached on the inputs evaluated here). -/
def sortRange (l : List Rec) (lo hi : Nat) : List Rec :=
  if lo ≤ hi ∧ hi ≤ l.length then
    l.take lo ++ insSortByDate ((l.drop lo).take (hi - lo)) ++ l.drop hi
  else l

/-- Model of the introsort loop of libstdc++ on the range [lo, hi): while the
range is longer than 16, either fall back when the depth limit is exhausted,
or partition, recurse on the right part and continue on the left part. -/
def introLoop : List Rec → Nat → Nat → Nat → Nat → List Rec
  | l, _, _, _, 0 => l
  | l, lo, hi, depth, fuel + 1 =>
      if 16 < hi - lo then
        if depth = 0 then sortRange l lo hi
        else
          let p := partitionPivot l lo hi
          let l2 := introLoop p.1 p.2 hi (depth - 1) fuel
          introLoop l2 lo p.2 (depth - 1) fuel
      else l

/-- Floor of the base-two logarithm (the __lg of libstdc++), written with a
fuel argument so that it evaluates by kernel reduction; the fuel never binds
for fuel at least n. -/
def lg2F : Nat → Nat → Nat
  | 0, _ => 0
  | f + 1, n => if 2 ≤ n then lg2F f (n / 2) + 1 else 0

/-- Floor of the base-two logarithm of n. -/
def lg2 (n : Nat) : Nat := lg2F n n

/-- Model of std::sort as implemented by libstdc++: introsort loop with depth
limit 2 * floor(log2 n), then insertion sort. -/
def cppSort (l : List Rec) : List Rec :=
  if l = [] then []
  else insSortByDate (introLoop l 0 l.length (2 * lg2 l.length) (4 * (l.length + 5)))

/-- Model of filterByDateRange of curate.cpp: keep the records with date in
[a, b] (both bounds inclusive, in input order), then std::sort by date. -/
def filterByDateRange (all : List Rec) (a b : Int) : List Rec :=
  cppSort (all.filter (fun r => decide (a ≤ r.date) && decide (r.date ≤ b)))

/-! ### Rendering -/

/-- Try the optional scheme of the urlDomain regex at the start of s: the
greedy branch https:// first, then http://. -/
def schemeSplit (s : Str) : Option Str :=
  if (strL "https://").isPrefixOf s then some (s.drop 8)
  else if (strL "http://").isPrefixOf s then some (s.drop 7)
  else none

/-- Match of the regex body at this position without the scheme: one or more
characters other than a slash. -/
def noSchemeAt (s : Str) : Option Str :=
  match s with
  | [] => none
  | c :: _ => if c = '/' then none else some (s.takeWhile (fun x => x ≠ '/'))

/-- Match of the urlDomain regex at this position: the scheme branch must be
followed by at least one non-slash character, else backtrack to the plain
branch. -/
def domAt (s : Str) : Option Str :=
  match schemeSplit s with
  | some rest =>
      match rest with
      | c :: _ => if c = '/' then noSchemeAt s else some (rest.takeWhile (fun x => x ≠ '/'))
      | [] => noSchemeAt s
  | none => noSchemeAt s

/-- Leftmost match of the urlDomain regex. -/
def domSearch : Str → Option Str
  | [] => none
  | c :: rest =>
      match domAt (c :: rest) with
      | some d => some d
      | none => domSearch rest

/-- Model of urlDomain of curate.cpp: the host captured by searching for an
optional http or https scheme followed by the run of non-slash characters;
the whole url when the regex does not match. -/
def urlDomain (u : Str) : Str := (domSearch u).getD u

/-- Model of recLineMarkdown of curate.cpp: the digest bullet line. -/
def recLineMarkdown (r : Rec) : Str :=
  strL "- [" ++ urlDomain r.url ++ strL "](" ++ r.url ++ strL ") — *" ++ r.kind
    ++ strL "*"
    ++ (if trim r.title = [] then [] else strL " — " ++ trim r.title)
    ++ (match splitTags r.tags with
        | [] => []
        | tags => strL " — " ++ joinSpace (tags.map normalizeTagDisplayOne))

/-- Lexicographic comparison of strings, the std::map key order (bytewise
less-than; on ASCII data the character order coincides). -/
def lexLt : Str → Str → Bool
  | [], [] => false
  | [], _ :: _ => true
  | _ :: _, [] => false
  | a :: as, b :: bs => if a < b then true else if b < a then false else lexLt as bs

/-- Ordered insertion into the tag map (std::map semantics: keys in
lexicographic order, a new record pointer appended to the vector of its key). -/
def insertTag (m : List (Str × List Rec)) (k : Str) (r : Rec) :
    List (Str × List Rec) :=
  match m with
  | [] => [(k, [r])]
  | (k1, v) :: rest =>
      if k1 = k then (k1, v ++ [r]) :: rest
      else if lexLt k k1 then (k, [r]) :: (k1, v) :: rest
      else (k1, v) :: insertTag rest k r

/-- One record contributes one map entry per tag token with nonempty
normalized display. -/
def addRecTags (m : List (Str × List Rec)) (r : Rec) : List (Str × List Rec) :=
  (splitTags r.tags).foldl
    (fun m t =>
      if normalizeTagDisplayOne t = [] then m else insertTag m (normalizeTagDisplayOne t) r)
    m

/-- The byTag map of renderGroupedByTagsMarkdown: records of the filtered
input in order, each inserted under every one of its tags. -/
def byTag (rows : List Rec) : List (Str × List Rec) := rows.foldl addRecTags []

/-- Lookup of the record list of a key of the tag map (empty when absent). -/
def lookupTag (m : List (Str × List Rec)) (k : Str) : List Rec :=
  match m with
  | [] => []
  | (k1, v) :: rest => if k1 = k then v else lookupTag rest k

/-- Model of renderGroupedByTagsMarkdown of curate.cpp. -/
def renderGroupedByTagsMarkdown (rows : List Rec) : Str :=
  strL "## By Tag\n\n"
    ++ (byTag rows).flatMap
        (fun p => strL "### " ++ p.1 ++ '\n'
                    :: (p.2.flatMap (fun r => recLineMarkdown r ++ ['\n']) ++ ['\n']))
    ++ (if byTag rows = [] then strL "(No tags in range)\n" else [])

/-! ### Archiving (cmd_clear_inbox) -/

/-- Outcome of the archive operation: exit code, content of the inbox file
and content of the archive destination (none when the file does not exist). -/
structure ArchiveResult where
  exitCode : Int
  inbox : Option Str
  dest : Option Str
deriving DecidableEq, Repr

/-- Model of cmd_clear_inbox of curate.cpp on the store state.  The success
of the two fallible filesystem steps (rename, then copy) is injected by the
two flags.  A missing inbox is created empty.  A successful rename moves the
content and a fresh empty inbox is created; a failed rename falls back to
copy-then-truncate; when the copy fails too, the operation reports exit code
2 without touching the inbox. -/
def cmd_clear_inbox (inbox : Option Str) (renameOk copyOk : Bool) : ArchiveResult :=
  match inbox with
  | none => ⟨0, some [], none⟩
  | some content =>
      if renameOk then ⟨0, some [], some content⟩
      else if copyOk then ⟨0, some [], some content⟩
      else ⟨2, some content, none⟩

/-! ### Constants and predicates used by the claim statements -/

/-- A string free of tab and newline characters. -/
def noTabNl (s : Str) : Prop := ('\t' ∉ s) ∧ ('\n' ∉ s)

/-- Seventeen records sharing one date, with distinct single-letter urls. -/
def c2recs : List Rec :=
  (List.range 17).map (fun i => ⟨0, [], [Char.ofNat (97 + i)], [], []⟩)

/-- One record carrying the two tags of the hash a and hash capital A form,
whose normalized displays coincide. -/
def c4rec : Rec := ⟨days_from_civil 2024 1 1, strL "article", strL "u", [], strL "#a #A"⟩

/-- Rule list of the classifier precedence test: the dot pattern (matches any
string with a character other than a newline) labelled A before the x pattern
(matches any string containing x) labelled B. -/
def c6rules : List Rule :=
  [⟨fun s => s.any (fun c => c ≠ '\n'), strL "A"⟩,
   ⟨fun s => s.any (fun c => c = 'x'), strL "B"⟩]

/-- Store content consisting of one valid record line with no trailing
newline. -/
def c10content : Str := strL "2024-01-02\tk\tu\tt\tg"

/-- A well-formed record to append. -/
def c10rec : Rec := ⟨days_from_civil 2024 1 3, strL "code", strL "u2", strL "t2", strL "#x"⟩

/-! ### Calendar arithmetic lemmas -/

theorem cdiv_nonneg_eq (a b : Int) (h : 0 ≤ a) : cdiv a b = a / b := by
  simp [cdiv, h]

theorem cfd_doe_bounds (z : Int) : 0 ≤ cfd_doe z ∧ cfd_doe z ≤ 146096 := by
  unfold cfd_doe cfd_era cdiv
  split_ifs <;> omega

set_option maxHeartbeats 2000000 in
theorem hinnantBounds (doe : Int) (h0 : 0 ≤ doe) (h1 : doe ≤ 146096) :
    0 ≤ (doe - doe / 1460 + doe / 36524 - doe / 146096) / 365 ∧
    (doe - doe / 1460 + doe / 36524 - doe / 146096) / 365 ≤ 399 ∧
    0 ≤ doe - (365 * ((doe - doe / 1460 + doe / 36524 - doe / 146096) / 365)
          + (doe - doe / 1460 + doe / 36524 - doe / 146096) / 365 / 4
          - (doe - doe / 1460 + doe / 36524 - doe / 146096) / 365 / 100) ∧
    doe - (365 * ((doe - doe / 1460 + doe / 36524 - doe / 146096) / 365)
          + (doe - doe / 1460 + doe / 36524 - doe / 146096) / 365 / 4
          - (doe - doe / 1460 + doe / 36524 - doe / 146096) / 365 / 100) ≤ 365 := by
  refine ⟨by omega, by omega, ?_, ?_⟩ <;>
  · have hf : doe / 36524 = 0 ∨ doe / 36524 = 1 ∨ doe / 36524 = 2 ∨
        doe / 36524 = 3 ∨ doe / 36524 = 4 := by omega
    have hg : doe / 146096 = 0 ∨ doe / 146096 = 1 := by omega
    have hd : (doe - doe / 1460 + doe / 36524 - doe / 146096) / 365 / 100 = 0 ∨
        (doe - doe / 1460 + doe / 36524 - doe / 146096) / 365 / 100 = 1 ∨
        (doe - doe / 1460 + doe / 36524 - doe / 146096) / 365 / 100 = 2 ∨
        (doe - doe / 1460 + doe / 36524 - doe / 146096) / 365 / 100 = 3 := by omega
    rcases hf with hf|hf|hf|hf|hf <;> rcases hg with hg|hg <;>
      rcases hd with hd|hd|hd|hd <;> omega

theorem cfd_yoe_doy_bounds (z : Int) :
    0 ≤ cfd_yoe z ∧ cfd_yoe z ≤ 399 ∧ 0 ≤ cfd_doy z ∧ cfd_doy z ≤ 365 := by
  obtain ⟨h0, h1⟩ := cfd_doe_bounds z
  have e1460 : cdiv (cfd_doe z) 1460 = cfd_doe z / 1460 := cdiv_nonneg_eq _ _ h0
  have e36524 : cdiv (cfd_doe z) 36524 = cfd_doe z / 36524 := cdiv_nonneg_eq _ _ h0
  have e146096 : cdiv (cfd_doe z) 146096 = cfd_doe z / 146096 := cdiv_nonneg_eq _ _ h0
  have hnum : 0 ≤ cfd_doe z - cfd_doe z / 1460 + cfd_doe z / 36524 - cfd_doe z / 146096 := by
    omega
  have eyoe : cfd_yoe z =
      (cfd_doe z - cfd_doe z / 1460 + cfd_doe z / 36524 - cfd_doe z / 146096) / 365 := by
    unfold cfd_yoe
    rw [e1460, e36524, e146096, cdiv_nonneg_eq _ _ hnum]
  have hb := hinnantBounds (cfd_doe z) h0 h1
  have hyoe0 : 0 ≤ cfd_yoe z := by rw [eyoe]; exact hb.1
  have e4 : cdiv (cfd_yoe z) 4 = cfd_yoe z / 4 := cdiv_nonneg_eq _ _ hyoe0
  have e100 : cdiv (cfd_yoe z) 100 = cfd_yoe z / 100 := cdiv_nonneg_eq _ _ hyoe0
  have edoy : cfd_doy z =
      cfd_doe z - (365 * cfd_yoe z + cfd_yoe z / 4 - cfd_yoe z / 100) := by
    unfold cfd_doy
    rw [e4, e100]
  rw [eyoe] at edoy ⊢
  omega

theorem cfd_mp_bounds (z : Int) : 0 ≤ cfd_mp z ∧ cfd_mp z ≤ 11 := by
  obtain ⟨-, -, hd0, hd1⟩ := cfd_yoe_doy_bounds z
  have h0 : 0 ≤ 5 * cfd_doy z + 2 := by omega
  have : cfd_mp z = (5 * cfd_doy z + 2) / 153 := by
    unfold cfd_mp; exact cdiv_nonneg_eq _ _ h0
  omega

theorem cfd_m_bounds (z : Int) : 1 ≤ cfd_m z ∧ cfd_m z ≤ 12 := by
  obtain ⟨h0, h1⟩ := cfd_mp_bounds z
  unfold cfd_m
  split_ifs <;> omega

theorem cfd_day_bounds (z : Int) :
    1 ≤ cfd_doy z - cdiv (153 * cfd_mp z + 2) 5 + 1 ∧
    cfd_doy z - cdiv (153 * cfd_mp z + 2) 5 + 1 ≤ 31 := by
  obtain ⟨-, -, hd0, hd1⟩ := cfd_yoe_doy_bounds z
  obtain ⟨hm0, hm1⟩ := cfd_mp_bounds z
  have h5 : 0 ≤ 153 * cfd_mp z + 2 := by omega
  have e5 : cdiv (153 * cfd_mp z + 2) 5 = (153 * cfd_mp z + 2) / 5 := cdiv_nonneg_eq _ _ h5
  have h0 : 0 ≤ 5 * cfd_doy z + 2 := by omega
  have emp : cfd_mp z = (5 * cfd_doy z + 2) / 153 := by
    unfold cfd_mp; exact cdiv_nonneg_eq _ _ h0
  have hcases : cfd_mp z = 0 ∨ cfd_mp z = 1 ∨ cfd_mp z = 2 ∨ cfd_mp z = 3 ∨
      cfd_mp z = 4 ∨ cfd_mp z = 5 ∨ cfd_mp z = 6 ∨ cfd_mp z = 7 ∨ cfd_mp z = 8 ∨
      cfd_mp z = 9 ∨ cfd_mp z = 10 ∨ cfd_mp z = 11 := by omega
  rcases hcases with h|h|h|h|h|h|h|h|h|h|h|h <;> rw [h] at e5 emp ⊢ <;> omega

set_option maxHeartbeats 1000000 in
theorem civil_rt (z : Int) :
    days_from_civil (civil_from_days z).1 (civil_from_days z).2.1
      (civil_from_days z).2.2 = z := by
  obtain ⟨hdoe0, hdoe1⟩ := cfd_doe_bounds z
  obtain ⟨hy0, hy1, hdy0, hdy1⟩ := cfd_yoe_doy_bounds z
  obtain ⟨hmp0, hmp1⟩ := cfd_mp_bounds z
  obtain ⟨hm0, hm1⟩ := cfd_m_bounds z
  have hedoe : cfd_doe z = z + 719468 - cfd_era z * 146097 := rfl
  have hedoy : cfd_doy z =
      cfd_doe z - (365 * cfd_yoe z + cdiv (cfd_yoe z) 4 - cdiv (cfd_yoe z) 100) := rfl
  show days_from_civil
      (cfd_yoe z + cfd_era z * 400 + (if cfd_m z ≤ 2 then 1 else 0)) (cfd_m z)
      (cfd_doy z - cdiv (153 * cfd_mp z + 2) 5 + 1) = z
  have hya : dfc_yAdj (cfd_yoe z + cfd_era z * 400 + (if cfd_m z ≤ 2 then 1 else 0))
      (cfd_m z) = cfd_yoe z + cfd_era z * 400 := by
    unfold dfc_yAdj
    split_ifs <;> omega
  have hera : dfc_era (cfd_yoe z + cfd_era z * 400) = cfd_era z := by
    unfold dfc_era cdiv
    split_ifs <;> omega
  have hyoe : dfc_yoe (cfd_yoe z + cfd_era z * 400 + (if cfd_m z ≤ 2 then 1 else 0))
      (cfd_m z) = cfd_yoe z := by
    unfold dfc_yoe
    rw [hya, hera]
    ring
  have hmp : (if 2 < cfd_m z then cfd_m z - 3 else cfd_m z + 9) = cfd_mp z := by
    have : cfd_m z = cfd_mp z + (if cfd_mp z < 10 then 3 else -9) := rfl
    split_ifs at this ⊢ <;> omega
  unfold days_from_civil
  rw [hya, hera, hyoe, hmp]
  omega

theorem dfc_jan1_le (y m d : Int) (hm1 : 1 ≤ m) (hm2 : m ≤ 12) (hd1 : 1 ≤ d) :
    days_from_civil y 1 1 ≤ days_from_civil y m d := by
  have h306 : cdiv (153 * (if 2 < (1:Int) then (1:Int) - 3 else 1 + 9) + 2) 5 = 306 := by
    decide
  have hADJ1 : dfc_yAdj y 1 = y - 1 := by unfold dfc_yAdj; norm_num
  by_cases h2 : m ≤ 2
  · have hn2 : ¬ (2 < m) := by omega
    have hADJ : dfc_yAdj y m = y - 1 := by unfold dfc_yAdj; simp [h2]
    have hmo : (if 2 < m then m - 3 else m + 9) = m + 9 := by simp [hn2]
    unfold days_from_civil dfc_yoe
    rw [hADJ, hADJ1, hmo, h306]
    have he : 400 * dfc_era (y - 1) ≤ y - 1 ∧ y - 1 < 400 * dfc_era (y - 1) + 400 := by
      unfold dfc_era cdiv
      split_ifs <;> omega
    have hyoe0 : 0 ≤ y - 1 - dfc_era (y - 1) * 400 := by omega
    have hc4 : cdiv (y - 1 - dfc_era (y - 1) * 400) 4 = (y - 1 - dfc_era (y - 1) * 400) / 4 :=
      cdiv_nonneg_eq _ _ hyoe0
    have hc100 : cdiv (y - 1 - dfc_era (y - 1) * 400) 100 =
        (y - 1 - dfc_era (y - 1) * 400) / 100 := cdiv_nonneg_eq _ _ hyoe0
    rw [hc4, hc100]
    have hmm : m = 1 ∨ m = 2 := by omega
    have hmt : cdiv (153 * (m + 9) + 2) 5 = 306 ∨ cdiv (153 * (m + 9) + 2) 5 = 337 := by
      rcases hmm with h|h <;> rw [h]
      · left; decide
      · right; decide
    omega
  · have hn2 : 2 < m := by omega
    have hADJ : dfc_yAdj y m = y := by unfold dfc_yAdj; simp [h2]
    have hmo : (if 2 < m then m - 3 else m + 9) = m - 3 := by simp [hn2]
    unfold days_from_civil dfc_yoe
    rw [hADJ, hADJ1, hmo, h306]
    have he1 : 400 * dfc_era (y - 1) ≤ y - 1 ∧ y - 1 < 400 * dfc_era (y - 1) + 400 := by
      unfold dfc_era cdiv
      split_ifs <;> omega
    have he2 : 400 * dfc_era y ≤ y ∧ y < 400 * dfc_era y + 400 := by
      unfold dfc_era cdiv
      split_ifs <;> omega
    have hy10 : 0 ≤ y - 1 - dfc_era (y - 1) * 400 := by omega
    have hy20 : 0 ≤ y - dfc_era y * 400 := by omega
    have hc1 : cdiv (y - 1 - dfc_era (y - 1) * 400) 4 = (y - 1 - dfc_era (y - 1) * 400) / 4 :=
      cdiv_nonneg_eq _ _ hy10
    have hc2 : cdiv (y - 1 - dfc_era (y - 1) * 400) 100 =
        (y - 1 - dfc_era (y - 1) * 400) / 100 := cdiv_nonneg_eq _ _ hy10
    have hc3 : cdiv (y - dfc_era y * 400) 4 = (y - dfc_era y * 400) / 4 :=
      cdiv_nonneg_eq _ _ hy20
    have hc4 : cdiv (y - dfc_era y * 400) 100 = (y - dfc_era y * 400) / 100 :=
      cdiv_nonneg_eq _ _ hy20
    rw [hc1, hc2, hc3, hc4]
    have hm30 : 0 ≤ 153 * (m - 3) + 2 := by omega
    have hmt : cdiv (153 * (m - 3) + 2) 5 = (153 * (m - 3) + 2) / 5 :=
      cdiv_nonneg_eq _ _ hm30
    rw [hmt]
    have hee : dfc_era y = dfc_era (y - 1) ∨ dfc_era y = dfc_era (y - 1) + 1 := by omega
    omega

theorem civil_year_le (t : Int) :
    days_from_civil ((civil_from_days t).1) 1 1 ≤ t := by
  have hrt := civil_rt t
  obtain ⟨hm0, hm1⟩ := cfd_m_bounds t
  obtain ⟨hd0, hd1⟩ := cfd_day_bounds t
  calc days_from_civil ((civil_from_days t).1) 1 1
      ≤ days_from_civil (civil_from_days t).1 (civil_from_days t).2.1
          (civil_from_days t).2.2 := by
        apply dfc_jan1_le
        · exact hm0
        · exact hm1
        · exact hd0
    _ = t := hrt

theorem daysSinceMonday_bounds (z : Int) :
    0 ≤ daysSinceMonday z ∧ daysSinceMonday z ≤ 6 := by
  unfold daysSinceMonday weekdayFromDays
  split_ifs <;> omega

theorem isoMonday_wd (z : Int) : (isoMonday z + 4) % 7 = 1 := by
  unfold isoMonday daysSinceMonday weekdayFromDays
  split_ifs <;> omega

theorem dfc_jan4_eq (y : Int) : days_from_civil y 1 4 = days_from_civil y 1 1 + 3 := by
  unfold days_from_civil
  omega

/-- C9: for every calendar date d, with (y, w) the ISO year and week computed
by isoWeekFromDate, the bounds returned by weekBounds y w bracket d:
monday <= d <= sunday. -/
theorem c9_week_bounds_bracket (z : Int) :
    (weekBounds (isoWeekFromDate z).year (isoWeekFromDate z).week).monday ≤ z ∧
    z ≤ (weekBounds (isoWeekFromDate z).year (isoWeekFromDate z).week).sunday := by
  have hdsm := daysSinceMonday_bounds z
  have hM : isoMonday z = z - daysSinceMonday z := rfl
  have hMwd := isoMonday_wd z
  have hW1wd : (week1Monday (isoYearOf z) + 4) % 7 = 1 :=
    isoMonday_wd (days_from_civil (isoYearOf z) 1 4)
  have hj4 := daysSinceMonday_bounds (days_from_civil (isoYearOf z) 1 4)
  have hW1 : week1Monday (isoYearOf z) =
      days_from_civil (isoYearOf z) 1 4
        - daysSinceMonday (days_from_civil (isoYearOf z) 1 4) := rfl
  have hjan4 := dfc_jan4_eq (isoYearOf z)
  have hjan1 : days_from_civil ((civil_from_days (isoMonday z + 3)).1) 1 1 ≤
      isoMonday z + 3 := civil_year_le (isoMonday z + 3)
  have hY : isoYearOf z = (civil_from_days (isoMonday z + 3)).1 := rfl
  rw [← hY] at hjan1
  have hmod : (isoMonday z - week1Monday (isoYearOf z)) % 7 = 0 := by omega
  have hge : 0 ≤ isoMonday z - week1Monday (isoYearOf z) := by omega
  have hcd : cdiv (isoMonday z - week1Monday (isoYearOf z)) 7 =
      (isoMonday z - week1Monday (isoYearOf z)) / 7 := cdiv_nonneg_eq _ _ hge
  show week1Monday (isoYearOf z)
      + 7 * (1 + cdiv (isoMonday z - week1Monday (isoYearOf z)) 7 - 1) ≤ z ∧
    z ≤ week1Monday (isoYearOf z)
      + 7 * (1 + cdiv (isoMonday z - week1Monday (isoYearOf z)) 7 - 1) + 6
  rw [hcd]
  omega

/-- C8: isoWeekFromDate applied to 2023-01-01 (a Sunday) returns ISO year
2022 and week number 52. -/
theorem c8_iso_week_fixed_point :
    (isoWeekFromDate (days_from_civil 2023 1 1)).year = 2022 ∧
    (isoWeekFromDate (days_from_civil 2023 1 1)).week = 52 := by
  constructor <;> decide

/-! ### C5: archive never loses records -/

/-- C5: archiving never truncates the log before its content has reached the
destination, and when both the rename and the fallback copy fail the command
reports exit code 2 and leaves the log content unchanged. -/
theorem c5_archive_no_loss (content : Str) (renameOk copyOk : Bool) :
    ((cmd_clear_inbox (some content) renameOk copyOk).dest = some content ∨
      (cmd_clear_inbox (some content) renameOk copyOk).inbox = some content) ∧
    (renameOk = false → copyOk = false →
      (cmd_clear_inbox (some content) renameOk copyOk).exitCode = 2 ∧
      (cmd_clear_inbox (some content) renameOk copyOk).inbox = some content) := by
  unfold cmd_clear_inbox
  rcases renameOk <;> rcases copyOk <;> simp

/-- Witness for C5 at a concrete store content with both steps failing. -/
theorem c5_archive_no_loss_witness :
    (cmd_clear_inbox (some (strL "2024-01-02\tk\tu\tt\tg\n")) false false).exitCode = 2 ∧
    (cmd_clear_inbox (some (strL "2024-01-02\tk\tu\tt\tg\n")) false false).inbox =
      some (strL "2024-01-02\tk\tu\tt\tg\n") :=
  (c5_archive_no_loss (strL "2024-01-02\tk\tu\tt\tg\n") false false).2 rfl rfl

/-! ### C6: first-match classification -/

theorem detectKind_first (pre post : List Rule) (r : Rule) (url : Str)
    (hpre : ∀ p ∈ pre, p.re url = false) (hr : r.re url = true) :
    detectKind (pre ++ r :: post) url = r.kind := by
  induction pre with
  | nil => simp [detectKind, hr]
  | cons p ps ih =>
      have hp : p.re url = false := hpre p (List.mem_cons_self p ps)
      simp only [List.cons_append, detectKind, hp, Bool.false_eq_true, if_false]
      exact ih (fun q hq => hpre q (List.mem_cons_of_mem p hq))

/-- C6: classification returns the label of the first rule in list order
whose pattern matches anywhere in the url, falls back to the label article
when no rule matches, and on the rule list dot to A before x to B the url xyz
is classified A. -/
theorem c6_classify_first_match :
    (∀ (pre post : List Rule) (r : Rule) (url : Str),
        (∀ p ∈ pre, p.re url = false) → r.re url = true →
        detectKind (pre ++ r :: post) url = r.kind) ∧
    (∀ (rules : List Rule) (url : Str),
        (∀ r ∈ rules, r.re url = false) → detectKind rules url = strL "article") ∧
    detectKind c6rules (strL "xyz") = strL "A" := by
  refine ⟨detectKind_first, ?_, by decide⟩
  intro rules url hall
  induction rules with
  | nil => rfl
  | cons r rest ih =>
      have hr : r.re url = false := hall r (List.mem_cons_self r rest)
      simp only [detectKind, hr, Bool.false_eq_true, if_false]
      exact ih (fun q hq => hall q (List.mem_cons_of_mem r hq))

/-- Witness for C6: a first rule that does not match is skipped and the
second rule in order supplies the label. -/
theorem c6_classify_first_match_witness :
    detectKind [⟨fun s => s.any (fun c => c = 'q'), strL "Q"⟩,
                ⟨fun s => s.any (fun c => c = 'y'), strL "Y"⟩] (strL "xyz") = strL "Y" :=
  c6_classify_first_match.1 [⟨fun s => s.any (fun c => c = 'q'), strL "Q"⟩] []
    ⟨fun s => s.any (fun c => c = 'y'), strL "Y"⟩ (strL "xyz") (by decide) (by decide)

/-! ### Decimal printing lemmas -/

theorem natDigitsRevF_one (f x : Nat) (hf : 2 ≤ f) (h1 : 1 ≤ x) (h9 : x ≤ 9) :
    natDigitsRevF f x = [x] := by
  obtain ⟨g, rfl⟩ : ∃ g, f = g + 2 := ⟨f - 2, by omega⟩
  have h0 : ¬ (x = 0) := by omega
  have hm : x % 10 = x := by omega
  have hd : x / 10 = 0 := by omega
  simp [natDigitsRevF, h0, hm, hd]

theorem natDigitsRevF_two (f x y : Nat) (hf : 3 ≤ f) (h1 : 1 ≤ x) (h9 : x ≤ 9)
    (hy : y ≤ 9) : natDigitsRevF f (10 * x + y) = [y, x] := by
  obtain ⟨g, rfl⟩ : ∃ g, f = g + 3 := ⟨f - 3, by omega⟩
  have h0 : ¬ (10 * x + y = 0) := by omega
  have hm : (10 * x + y) % 10 = y := by omega
  have hd : (10 * x + y) / 10 = x := by omega
  have h0x : ¬ (x = 0) := by omega
  have hmx : x % 10 = x := by omega
  have hdx : x / 10 = 0 := by omega
  simp [natDigitsRevF, h0, hm, hd, h0x, hmx, hdx]

theorem natDigitsRevF_four (f a b c d : Nat) (hf : 5 ≤ f) (ha1 : 1 ≤ a) (ha : a ≤ 9)
    (hb : b ≤ 9) (hc : c ≤ 9) (hd : d ≤ 9) :
    natDigitsRevF f (1000 * a + 100 * b + 10 * c + d) = [d, c, b, a] := by
  obtain ⟨g, rfl⟩ : ∃ g, f = g + 5 := ⟨f - 5, by omega⟩
  have e0 : ¬ (1000 * a + 100 * b + 10 * c + d = 0) := by omega
  have e1 : (1000 * a + 100 * b + 10 * c + d) % 10 = d := by omega
  have e2 : (1000 * a + 100 * b + 10 * c + d) / 10 = 100 * a + 10 * b + c := by omega
  have e3 : ¬ (100 * a + 10 * b + c = 0) := by omega
  have e4 : (100 * a + 10 * b + c) % 10 = c := by omega
  have e5 : (100 * a + 10 * b + c) / 10 = 10 * a + b := by omega
  have e6 : ¬ (10 * a + b = 0) := by omega
  have e7 : (10 * a + b) % 10 = b := by omega
  have e8 : (10 * a + b) / 10 = a := by omega
  have e9 : ¬ (a = 0) := by omega
  have e10 : a % 10 = a := by omega
  have e11 : a / 10 = 0 := by omega
  simp [natDigitsRevF, e0, e1, e2, e3, e4, e5, e6, e7, e8, e9, e10, e11]

theorem natToStr_one (x : Nat) (h1 : 1 ≤ x) (h9 : x ≤ 9) :
    natToStr x = [digitCharC x] := by
  unfold natToStr
  rw [if_neg (by omega), natDigitsRevF_one (x + 1) x (by omega) h1 h9]
  rfl

theorem natToStr_two (x y : Nat) (h1 : 1 ≤ x) (h9 : x ≤ 9) (hy : y ≤ 9) :
    natToStr (10 * x + y) = [digitCharC x, digitCharC y] := by
  unfold natToStr
  rw [if_neg (by omega), natDigitsRevF_two (10 * x + y + 1) x y (by omega) h1 h9 hy]
  rfl

theorem natToStr_four (a b c d : Nat) (ha1 : 1 ≤ a) (ha : a ≤ 9) (hb : b ≤ 9)
    (hc : c ≤ 9) (hd : d ≤ 9) :
    natToStr (1000 * a + 100 * b + 10 * c + d) =
      [digitCharC a, digitCharC b, digitCharC c, digitCharC d] := by
  unfold natToStr
  rw [if_neg (by omega),
    natDigitsRevF_four (1000 * a + 100 * b + 10 * c + d + 1) a b c d (by omega) ha1 ha hb hc hd]
  rfl

theorem digitCharC_inv (c : Char) (h : isDigitC c = true) :
    digitCharC (c.toNat - 48) = c := by
  have hb : 48 ≤ c.toNat ∧ c.toNat ≤ 57 := by
    unfold isDigitC at h
    simp only [Bool.and_eq_true, decide_eq_true_eq] at h
    exact h
  unfold digitCharC
  rw [show 48 + (c.toNat - 48) = c.toNat by omega]
  exact Char.ofNat_toNat c

theorem digitVal_toNat (c : Char) (h : isDigitC c = true) :
    digitVal c = ((c.toNat - 48 : Nat) : Int) ∧ c.toNat - 48 ≤ 9 := by
  have hb : 48 ≤ c.toNat ∧ c.toNat ≤ 57 := by
    unfold isDigitC at h
    simp only [Bool.and_eq_true, decide_eq_true_eq] at h
    exact h
  unfold digitVal
  constructor
  · omega
  · omega

theorem intToStr_ofNat (n : Nat) : intToStr (n : Int) = natToStr n := by
  unfold intToStr
  rw [if_neg (by omega), Int.natAbs_ofNat]

theorem pad2_digits (m1 m2 : Char) (h1 : isDigitC m1 = true) (h2 : isDigitC m2 = true)
    (hlo : 1 ≤ 10 * digitVal m1 + digitVal m2) :
    pad2 (10 * digitVal m1 + digitVal m2) = [m1, m2] := by
  obtain ⟨e1, b1⟩ := digitVal_toNat m1 h1
  obtain ⟨e2, b2⟩ := digitVal_toNat m2 h2
  rw [e1, e2] at hlo ⊢
  have hxy : 10 * ((m1.toNat - 48 : Nat) : Int) + ((m2.toNat - 48 : Nat) : Int) =
      (((10 * (m1.toNat - 48) + (m2.toNat - 48)) : Nat) : Int) := by
    push_cast
    ring
  rw [hxy]
  have hinv1 := digitCharC_inv m1 h1
  have hinv2 := digitCharC_inv m2 h2
  set x := m1.toNat - 48 with hx
  set y := m2.toNat - 48 with hy
  have hlon : 1 ≤ 10 * x + y := by omega
  unfold pad2
  rw [intToStr_ofNat]
  by_cases hx0 : x = 0
  · have hy1 : 1 ≤ y := by omega
    rw [hx0, show 10 * 0 + y = y by omega, natToStr_one y hy1 b2]
    rw [if_pos (by simp)]
    have hm1 : m1 = '0' := by
      rw [hx0] at hinv1
      exact hinv1.symm.trans (by decide)
    rw [hm1, hinv2]
  · rw [natToStr_two x y (by omega) b1 b2, if_neg (by simp)]
    rw [hinv1, hinv2]

/-! ### C3: parse and format round trip -/

/-- C3 counterexample: the valid calendar date string 0099-01-01 is accepted
by parseISODate, but fmtDate prints the year without zero padding, so the
round trip yields 99-01-01 and not the original string; this refutes the
claim for years below 1000. -/
theorem c3_counterexample :
    parseISODate (strL "0099-01-01") = some (days_from_civil 99 1 1) ∧
    Option.map fmtDate (parseISODate (strL "0099-01-01")) = some (strL "99-01-01") ∧
    Option.map fmtDate (parseISODate (strL "0099-01-01")) ≠ some (strL "0099-01-01") := by
  refine ⟨by decide, by decide, by decide⟩

/-- C3 (amended): for every string of the exact shape YYYY-MM-DD that
parseISODate accepts and whose year part does not start with the digit 0
(hence the year is at least 1000), fmtDate of the parsed date reproduces the
string exactly; fmtDate zero-pads the month and the day but prints the year
with no padding. -/
theorem c3_format_parse_roundtrip (s : Str) (z : Int)
    (hs : parseISODate s = some z) (h0 : s.getD 0 ' ' ≠ '0') :
    fmtDate z = s := by
  unfold parseISODate at hs
  split at hs
  next c1 c2 c3 c4 m1 m2 d1 d2 =>
    split_ifs at hs with hdig hrange hciv
    have hz := Option.some.inj hs
    subst hz
    simp only [Bool.and_eq_true] at hdig
    obtain ⟨⟨⟨⟨⟨⟨⟨h1, h2⟩, h3⟩, h4⟩, h5⟩, h6⟩, h7⟩, h8⟩ := hdig
    simp only [Bool.or_eq_true, decide_eq_true_eq, not_or, not_lt] at hrange
    obtain ⟨⟨⟨hm1, hm12⟩, hd1⟩, hd31⟩ := hrange
    simp only [List.getD_cons_zero] at h0
    unfold fmtDate
    rw [hciv]
    obtain ⟨e1, b1⟩ := digitVal_toNat c1 h1
    obtain ⟨e2, b2⟩ := digitVal_toNat c2 h2
    obtain ⟨e3, b3⟩ := digitVal_toNat c3 h3
    obtain ⟨e4, b4⟩ := digitVal_toNat c4 h4
    have hinv1 := digitCharC_inv c1 h1
    have hinv2 := digitCharC_inv c2 h2
    have hinv3 := digitCharC_inv c3 h3
    have hinv4 := digitCharC_inv c4 h4
    have ha1 : 1 ≤ c1.toNat - 48 := by
      rcases Nat.eq_zero_or_pos (c1.toNat - 48) with hzz | hzz
      · exfalso
        rw [hzz] at hinv1
        have hc0 : c1 = '0' := by
          rw [← hinv1]
          decide
        exact h0 hc0
      · exact hzz
    have hYcast : parseY c1 c2 c3 c4 =
        (((1000 * (c1.toNat - 48) + 100 * (c2.toNat - 48) + 10 * (c3.toNat - 48)
            + (c4.toNat - 48)) : Nat) : Int) := by
      unfold parseY
      rw [e1, e2, e3, e4]
      push_cast
      ring
    have hY : intToStr (parseY c1 c2 c3 c4) = [c1, c2, c3, c4] := by
      rw [hYcast, intToStr_ofNat,
        natToStr_four _ _ _ _ ha1 (by omega) b2 b3 b4, hinv1, hinv2, hinv3, hinv4]
    have hMO : pad2 (parse2 m1 m2) = [m1, m2] :=
      pad2_digits m1 m2 h5 h6 (by unfold parse2 at hm1; omega)
    have hD : pad2 (parse2 d1 d2) = [d1, d2] :=
      pad2_digits d1 d2 h7 h8 (by unfold parse2 at hd1; omega)
    show intToStr (parseY c1 c2 c3 c4, parse2 m1 m2, parse2 d1 d2).1
        ++ '-' :: pad2 (parseY c1 c2 c3 c4, parse2 m1 m2, parse2 d1 d2).2.1
        ++ '-' :: pad2 (parseY c1 c2 c3 c4, parse2 m1 m2, parse2 d1 d2).2.2
        = [c1, c2, c3, c4, '-', m1, m2, '-', d1, d2]
    rw [show (parseY c1 c2 c3 c4, parse2 m1 m2, parse2 d1 d2).1 = parseY c1 c2 c3 c4 from rfl]
    rw [show (parseY c1 c2 c3 c4, parse2 m1 m2, parse2 d1 d2).2.1 = parse2 m1 m2 from rfl]
    rw [show (parseY c1 c2 c3 c4, parse2 m1 m2, parse2 d1 d2).2.2 = parse2 d1 d2 from rfl]
    rw [hY, hMO, hD]
    rfl
  next => simp at hs

/-- Witness for C3 at the concrete date string 1987-06-05. -/
theorem c3_format_parse_roundtrip_witness :
    parseISODate (strL "1987-06-05") = some (days_from_civil 1987 6 5) ∧
    (strL "1987-06-05").getD 0 ' ' ≠ '0' ∧
    fmtDate (days_from_civil 1987 6 5) = strL "1987-06-05" :=
  ⟨by decide, by decide,
   c3_format_parse_roundtrip (strL "1987-06-05") (days_from_civil 1987 6 5)
     (by decide) (by decide)⟩

/-! ### C7: load skips corrupt lines -/

/-- C7: loadInbox skips blank lines and exactly those lines whose first
(trimmed) field fails calendar-date parsing; every other line becomes a
record whose missing trailing fields default to the empty string except the
kind, which defaults to the label link; loading a store with one corrupt
middle line between two valid lines yields exactly the two valid records. -/
theorem c7_load_skips :
    (∀ line : Str, parseLine line = none ↔
        (trim line = [] ∨ parseISODate (trim ((splitTabs line).getD 0 [])) = none)) ∧
    (∀ (line : Str) (d : Int), trim line ≠ [] →
        parseISODate (trim ((splitTabs line).getD 0 [])) = some d →
        parseLine line = some ⟨d, (splitTabs line).getD 1 (strL "link"),
          (splitTabs line).getD 2 [], (splitTabs line).getD 3 [],
          (splitTabs line).getD 4 []⟩) ∧
    loadInbox (strL "2024-03-05\tvideo\tu1\tt1\t#a\nnot-a-date\tk\tu\tt\t\n2024-03-06\tcode\tu2") =
      [⟨days_from_civil 2024 3 5, strL "video", strL "u1", strL "t1", strL "#a"⟩,
       ⟨days_from_civil 2024 3 6, strL "code", strL "u2", [], []⟩] := by
  refine ⟨?_, ?_, by decide⟩
  · intro line
    unfold parseLine
    by_cases h : trim line = []
    · simp [h]
    · rw [if_neg h]
      cases hp : parseISODate (trim ((splitTabs line).getD 0 [])) with
      | none => simp [h, hp]
      | some d => simp [h, hp]
  · intro line d h hp
    unfold parseLine
    rw [if_neg h, hp]

/-- Witness for C7: a two-field line is kept with defaulted url, title and
tags. -/
theorem c7_load_skips_witness :
    parseLine (strL "2024-03-05\tvideo") =
      some ⟨days_from_civil 2024 3 5, strL "video", [], [], []⟩ := by
  have h := c7_load_skips.2.1 (strL "2024-03-05\tvideo") (days_from_civil 2024 3 5)
    (by decide) (by decide)
  exact h.trans (by decide)


/-! ### C1: the appended record line -/

theorem mem_dropWhile {c : Char} {p : Char → Bool} :
    ∀ {l : Str}, c ∈ l.dropWhile p → c ∈ l := by
  intro l
  induction l with
  | nil => simp
  | cons a rest ih =>
      intro h
      rw [List.dropWhile_cons] at h
      by_cases hp : p a = true
      · simp only [hp, if_true] at h
        exact List.mem_cons_of_mem a (ih h)
      · simp only [hp, if_false] at h
        exact h

theorem mem_trim {c : Char} {s : Str} (h : c ∈ trim s) : c ∈ s := by
  unfold trim at h
  rw [List.mem_reverse] at h
  have h2 := mem_dropWhile h
  rw [List.mem_reverse] at h2
  exact mem_dropWhile h2

theorem splitTabsAux_no_tab (x : Str) (hx : '\t' ∉ x) :
    ∀ acc : Str, splitTabsAux x acc = [acc.reverse ++ x] := by
  induction x with
  | nil => intro acc; simp [splitTabsAux]
  | cons c rest ih =>
      intro acc
      have hc : ¬ (c = '\t') := fun h => hx (h ▸ List.mem_cons_self c rest)
      have hrest : '\t' ∉ rest := fun h => hx (List.mem_cons_of_mem c h)
      simp only [splitTabsAux, if_neg hc]
      exact (ih hrest (c :: acc)).trans (by simp)

theorem splitTabsAux_append (x rest : Str) (hx : '\t' ∉ x) :
    ∀ acc : Str, splitTabsAux (x ++ '\t' :: rest) acc =
      (acc.reverse ++ x) :: splitTabsAux rest [] := by
  induction x with
  | nil => intro acc; simp [splitTabsAux]
  | cons c xs ih =>
      intro acc
      have hc : ¬ (c = '\t') := fun h => hx (h ▸ List.mem_cons_self c xs)
      have hxs : '\t' ∉ xs := fun h => hx (List.mem_cons_of_mem c h)
      simp only [List.cons_append, splitTabsAux, if_neg hc]
      exact (ih hxs (c :: acc)).trans (by simp)

theorem splitTabs_joinTabs_five (a b c d e : Str) (ha : '\t' ∉ a) (hb : '\t' ∉ b)
    (hc : '\t' ∉ c) (hd : '\t' ∉ d) (he : '\t' ∉ e) :
    splitTabs (joinTabs [a, b, c, d, e]) = [a, b, c, d, e] := by
  have hj : joinTabs [a, b, c, d, e] =
      a ++ '\t' :: (b ++ '\t' :: (c ++ '\t' :: (d ++ '\t' :: e))) := by
    simp [joinTabs]
  rw [splitTabs, hj, splitTabsAux_append _ _ ha, splitTabsAux_append _ _ hb,
    splitTabsAux_append _ _ hc, splitTabsAux_append _ _ hd, splitTabsAux_no_tab _ he]
  simp

theorem natDigitsRevF_lt10 : ∀ (f n : Nat), ∀ k ∈ natDigitsRevF f n, k < 10 := by
  intro f
  induction f with
  | zero => intro n k hk; simp [natDigitsRevF] at hk
  | succ g ih =>
      intro n k hk
      unfold natDigitsRevF at hk
      by_cases h0 : n = 0
      · simp [h0] at hk
      · rw [if_neg h0] at hk
        rcases List.mem_cons.mp hk with h | h
        · omega
        · exact ih (n / 10) k h

theorem digit_or_dash_not_space (c : Char)
    (h : c = '-' ∨ ∃ k, k ≤ 9 ∧ c = digitCharC k) : isSpaceC c = false := by
  rcases h with h | ⟨k, hk, h⟩
  · rw [h]; decide
  · rw [h]
    interval_cases k <;> decide

theorem natToStr_chars (n : Nat) :
    ∀ c ∈ natToStr n, ∃ k, k ≤ 9 ∧ c = digitCharC k := by
  intro c hc
  unfold natToStr at hc
  by_cases h0 : n = 0
  · rw [if_pos h0] at hc
    simp at hc
    exact ⟨0, by omega, by rw [hc]; decide⟩
  · rw [if_neg h0] at hc
    rw [List.mem_reverse, List.mem_map] at hc
    obtain ⟨k, hk, rfl⟩ := hc
    exact ⟨k, by have := natDigitsRevF_lt10 (n + 1) n k hk; omega, rfl⟩

theorem intToStr_chars (i : Int) :
    ∀ c ∈ intToStr i, c = '-' ∨ ∃ k, k ≤ 9 ∧ c = digitCharC k := by
  intro c hc
  unfold intToStr at hc
  split_ifs at hc
  · rcases List.mem_cons.mp hc with h | h
    · exact Or.inl h
    · exact Or.inr (natToStr_chars _ c h)
  · exact Or.inr (natToStr_chars _ c hc)

theorem pad2_chars (i : Int) :
    ∀ c ∈ pad2 i, c = '-' ∨ ∃ k, k ≤ 9 ∧ c = digitCharC k := by
  intro c hc
  unfold pad2 at hc
  split_ifs at hc
  · rcases List.mem_cons.mp hc with h | h
    · exact Or.inr ⟨0, by omega, by rw [h]; decide⟩
    · exact intToStr_chars _ c h
  · exact intToStr_chars _ c hc

theorem fmtDate_not_space (z : Int) : ∀ c ∈ fmtDate z, isSpaceC c = false := by
  intro c hc
  unfold fmtDate at hc
  apply digit_or_dash_not_space
  rcases List.mem_append.mp hc with h | h
  · rcases List.mem_append.mp h with h1 | h1
    · exact intToStr_chars _ c h1
    · rcases List.mem_cons.mp h1 with h2 | h2
      · exact Or.inl h2
      · exact pad2_chars _ c h2
  · rcases List.mem_cons.mp h with h2 | h2
    · exact Or.inl h2
    · exact pad2_chars _ c h2

theorem not_space_noTabNl {s : Str} (h : ∀ c ∈ s, isSpaceC c = false) : noTabNl s := by
  constructor
  · intro hm
    have := h '\t' hm
    simp [isSpaceC] at this
  · intro hm
    have := h '\n' hm
    simp [isSpaceC] at this

theorem fmtDate_noTabNl (z : Int) : noTabNl (fmtDate z) :=
  not_space_noTabNl (fmtDate_not_space z)

theorem detectKind_noTabNl (rules : List Rule) (url : Str)
    (h : ∀ ru ∈ rules, noTabNl ru.kind) : noTabNl (detectKind rules url) := by
  induction rules with
  | nil =>
      have he : detectKind [] url = strL "article" := rfl
      rw [he]
      exact ⟨by decide, by decide⟩
  | cons r rest ih =>
      unfold detectKind
      by_cases hr : r.re url = true
      · rw [if_pos hr]
        exact h r (List.mem_cons_self r rest)
      · rw [if_neg hr]
        exact ih (fun q hq => h q (List.mem_cons_of_mem r hq))

theorem normTagsAux_chars (raw : List Str) :
    ∀ (acc : List Str) (s : Str) (c : Char), s ∈ normTagsAux raw acc → c ∈ s →
      (∃ a ∈ acc, c ∈ a) ∨ c = '#' ∨ ∃ t ∈ raw, c ∈ t := by
  induction raw with
  | nil =>
      intro acc s c hs hc
      unfold normTagsAux at hs
      rw [List.mem_reverse] at hs
      exact Or.inl ⟨s, hs, hc⟩
  | cons t rest ih =>
      intro acc s c hs hc
      have widen : (∃ a ∈ acc, c ∈ a) ∨ c = '#' ∨ (∃ q ∈ rest, c ∈ q) →
          (∃ a ∈ acc, c ∈ a) ∨ c = '#' ∨ ∃ q ∈ t :: rest, c ∈ q := by
        rintro (h | h | ⟨q, hq, hcq⟩)
        · exact Or.inl h
        · exact Or.inr (Or.inl h)
        · exact Or.inr (Or.inr ⟨q, List.mem_cons_of_mem t hq, hcq⟩)
      unfold normTagsAux at hs
      split at hs
      · exact widen (ih acc s c hs hc)
      · next c0 cs0 heq =>
          by_cases hh : c0 = '#'
          · simp only [if_pos hh] at hs
            split at hs
            · exact widen (ih acc s c hs hc)
            · rcases ih _ s c hs hc with ⟨a, ha, hca⟩ | h | ⟨q, hq, hcq⟩
              · rcases List.mem_cons.mp ha with h | h
                · subst h
                  rw [← heq] at hca
                  exact Or.inr (Or.inr ⟨t, List.mem_cons_self t rest, mem_trim hca⟩)
                · exact Or.inl ⟨a, h, hca⟩
              · exact Or.inr (Or.inl h)
              · exact Or.inr (Or.inr ⟨q, List.mem_cons_of_mem t hq, hcq⟩)
          · simp only [if_neg hh] at hs
            split at hs
            · exact widen (ih acc s c hs hc)
            · rcases ih _ s c hs hc with ⟨a, ha, hca⟩ | h | ⟨q, hq, hcq⟩
              · rcases List.mem_cons.mp ha with h | h
                · subst h
                  rcases List.mem_cons.mp hca with h2 | h2
                  · exact Or.inr (Or.inl h2)
                  · rw [← heq] at h2
                    exact Or.inr (Or.inr ⟨t, List.mem_cons_self t rest, mem_trim h2⟩)
                · exact Or.inl ⟨a, h, hca⟩
              · exact Or.inr (Or.inl h)
              · exact Or.inr (Or.inr ⟨q, List.mem_cons_of_mem t hq, hcq⟩)

theorem normalizeTagsForStorage_noTabNl (raw : List Str)
    (h : ∀ t ∈ raw, noTabNl t) : noTabNl (normalizeTagsForStorage raw) := by
  have key : ∀ c ∈ normalizeTagsForStorage raw, c = ' ' ∨ c = '#' ∨ ∃ t ∈ raw, c ∈ t := by
    intro c hc
    unfold normalizeTagsForStorage joinSpace at hc
    split at hc
    · simp at hc
    · next x xs heq =>
        rcases List.mem_append.mp hc with hx | hx
        · have hxm : x ∈ normTagsAux raw [] := by rw [heq]; exact List.mem_cons_self x xs
          rcases normTagsAux_chars raw [] x c hxm hx with ⟨a, ha, -⟩ | hh | hh
          · simp at ha
          · exact Or.inr (Or.inl hh)
          · exact Or.inr (Or.inr hh)
        · rw [List.mem_flatMap] at hx
          obtain ⟨y, hy, hcy⟩ := hx
          rcases List.mem_cons.mp hcy with hsp | hym
          · exact Or.inl hsp
          · have hym2 : y ∈ normTagsAux raw [] := by
              rw [heq]
              exact List.mem_cons_of_mem x hy
            rcases normTagsAux_chars raw [] y c hym2 hym with ⟨a, ha, -⟩ | hh | hh
            · simp at ha
            · exact Or.inr (Or.inl hh)
            · exact Or.inr (Or.inr hh)
  constructor
  · intro hm
    rcases key '\t' hm with h2 | h2 | ⟨t, ht, hct⟩
    · exact absurd h2 (by decide)
    · exact absurd h2 (by decide)
    · exact (h t ht).1 hct
  · intro hm
    rcases key '\n' hm with h2 | h2 | ⟨t, ht, hct⟩
    · exact absurd h2 (by decide)
    · exact absurd h2 (by decide)
    · exact (h t ht).2 hct

/-- C1 counterexample: an add invocation whose url argument contains a tab
produces a persisted line that splits into six fields, not five; nothing in
cmd_add or appendInbox strips or rejects tab characters in the url, title or
tag arguments, so the claim fails for such arguments. -/
theorem c1_counterexample :
    ¬ ((splitTabs (appendLine (cmd_add_record [] (days_from_civil 2024 1 1)
        (strL "a\tb") [] []))).length = 5) ∧
    (splitTabs (appendLine (cmd_add_record [] (days_from_civil 2024 1 1)
        (strL "a\tb") [] []))).length = 6 := by
  refine ⟨by decide, by decide⟩

/-- C1 (amended): for every add invocation whose url, title and tag arguments
contain no tab and no newline (and whose rule labels are likewise clean, as
the labels loaded from rules.tsv always are), the persisted line splits into
exactly the five fields date, kind, url, title, tags in that order, and no
field contains a tab or a newline. -/
theorem c1_add_record_five_fields (rules : List Rule) (date : Int) (url title : Str)
    (tags : List Str) (hu : noTabNl url) (ht : noTabNl title)
    (htags : ∀ t ∈ tags, noTabNl t) (hrules : ∀ ru ∈ rules, noTabNl ru.kind) :
    splitTabs (appendLine (cmd_add_record rules date url title tags)) =
      [fmtDate date, detectKind rules url, url, title, normalizeTagsForStorage tags] ∧
    (splitTabs (appendLine (cmd_add_record rules date url title tags))).length = 5 ∧
    (∀ f ∈ splitTabs (appendLine (cmd_add_record rules date url title tags)),
      noTabNl f) := by
  have hk := detectKind_noTabNl rules url hrules
  have hg := normalizeTagsForStorage_noTabNl tags htags
  have hf := fmtDate_noTabNl date
  have hsplit : splitTabs (appendLine (cmd_add_record rules date url title tags)) =
      [fmtDate date, detectKind rules url, url, title, normalizeTagsForStorage tags] := by
    show splitTabs (joinTabs [fmtDate date, detectKind rules url, url, title,
      normalizeTagsForStorage tags]) = _
    exact splitTabs_joinTabs_five _ _ _ _ _ hf.1 hk.1 hu.1 ht.1 hg.1
  refine ⟨hsplit, by rw [hsplit]; rfl, ?_⟩
  intro f hfm
  rw [hsplit] at hfm
  rcases List.mem_cons.mp hfm with rfl | hfm
  · exact hf
  rcases List.mem_cons.mp hfm with rfl | hfm
  · exact hk
  rcases List.mem_cons.mp hfm with rfl | hfm
  · exact hu
  rcases List.mem_cons.mp hfm with rfl | hfm
  · exact ht
  rcases List.mem_cons.mp hfm with rfl | hfm
  · exact hg
  · simp at hfm

/-- Witness for C1 at a concrete clean add invocation. -/
theorem c1_add_record_five_fields_witness :
    (splitTabs (appendLine (cmd_add_record [] (days_from_civil 2024 1 1)
      (strL "https://example.com/x") (strL "A title") [strL "a", strL "#b"]))).length = 5 :=
  (c1_add_record_five_fields [] (days_from_civil 2024 1 1)
    (strL "https://example.com/x") (strL "A title") [strL "a", strL "#b"]
    (by constructor <;> decide) (by constructor <;> decide)
    (by intro t htm; fin_cases htm <;> exact ⟨by decide, by decide⟩)
    (by intro ru hru; simp at hru)).2.1

/-! ### C10: append and load round trip -/

theorem natDigitsRevF_len_le : ∀ (f k n : Nat), n < 10 ^ k →
    (natDigitsRevF f n).length ≤ k := by
  intro f
  induction f with
  | zero => intro k n _; simp [natDigitsRevF]
  | succ g ih =>
      intro k n hn
      unfold natDigitsRevF
      by_cases h0 : n = 0
      · simp [h0]
      · rw [if_neg h0]
        have hk : k ≠ 0 := by
          intro hk0
          rw [hk0] at hn
          simp at hn
          omega
        obtain ⟨k2, rfl⟩ : ∃ k2, k = k2 + 1 := ⟨k - 1, by omega⟩
        have hdiv : n / 10 < 10 ^ k2 := by
          rw [Nat.div_lt_iff_lt_mul (by norm_num)]
          calc n < 10 ^ (k2 + 1) := hn
            _ = 10 ^ k2 * 10 := by ring
        simpa using ih k2 (n / 10) hdiv

theorem natDigitsRevF_len_ge : ∀ (f k n : Nat), 10 ^ k ≤ n → n ≤ f →
    k + 1 ≤ (natDigitsRevF f n).length := by
  intro f
  induction f with
  | zero =>
      intro k n h hf
      have hp : 0 < 10 ^ k := by positivity
      omega
  | succ g ih =>
      intro k n hk hf
      have hp : 0 < 10 ^ k := by positivity
      have h0 : n ≠ 0 := by omega
      unfold natDigitsRevF
      rw [if_neg h0]
      simp only [List.length_cons]
      cases k with
      | zero => omega
      | succ k2 =>
          have hdiv : 10 ^ k2 ≤ n / 10 := by
            rw [Nat.le_div_iff_mul_le (by norm_num)]
            calc 10 ^ k2 * 10 = 10 ^ (k2 + 1) := by ring
              _ ≤ n := hk
          have hnf : n / 10 ≤ g := by
            have : n / 10 < n := Nat.div_lt_self (by omega) (by norm_num)
            omega
          have := ih k2 (n / 10) hdiv hnf
          omega

theorem natToStr_len_four (n : Nat) (h : (natToStr n).length = 4) :
    1000 ≤ n ∧ n ≤ 9999 := by
  unfold natToStr at h
  by_cases h0 : n = 0
  · rw [if_pos h0] at h
    simp at h
  · rw [if_neg h0] at h
    simp only [List.length_reverse, List.length_map] at h
    constructor
    · by_contra hlt
      have hle := natDigitsRevF_len_le (n + 1) 3 n (by norm_num; omega)
      omega
    · by_contra hgt
      have hge := natDigitsRevF_len_ge (n + 1) 4 n (by norm_num; omega) (by omega)
      omega

theorem natToStr_ne_nil (n : Nat) : natToStr n ≠ [] := by
  unfold natToStr
  by_cases h0 : n = 0
  · rw [if_pos h0]
    simp
  · rw [if_neg h0]
    have hge := natDigitsRevF_len_ge (n + 1) 0 n (by simpa using Nat.one_le_iff_ne_zero.mpr h0)
      (by omega)
    intro hnil
    rw [← List.length_eq_zero] at hnil
    simp only [List.length_reverse, List.length_map] at hnil
    omega

theorem natToStr_len_le2 (n : Nat) (h : n ≤ 99) : (natToStr n).length ≤ 2 := by
  unfold natToStr
  by_cases h0 : n = 0
  · rw [if_pos h0]
    simp
  · rw [if_neg h0]
    have hle := natDigitsRevF_len_le (n + 1) 2 n (by norm_num; omega)
    simpa using hle

theorem pad2_len2 (n : Int) (h0 : 0 ≤ n) (h99 : n ≤ 99) : (pad2 n).length = 2 := by
  obtain ⟨m, rfl⟩ : ∃ m : Nat, n = (m : Int) := ⟨n.toNat, (Int.toNat_of_nonneg h0).symm⟩
  unfold pad2
  rw [intToStr_ofNat]
  have hle : (natToStr m).length ≤ 2 := natToStr_len_le2 m (by exact_mod_cast h99)
  have hge : 0 < (natToStr m).length := List.length_pos.mpr (natToStr_ne_nil m)
  by_cases hl : (natToStr m).length < 2
  · rw [if_pos hl]
    simp
    omega
  · rw [if_neg hl]
    omega

theorem digitVal_digitCharC (k : Nat) (h : k ≤ 9) :
    digitVal (digitCharC k) = (k : Int) := by
  interval_cases k <;> decide

theorem pad2_parse2 (n : Int) (h1 : 1 ≤ n) (h99 : n ≤ 99) (a b : Char)
    (heq : pad2 n = [a, b]) : parse2 a b = n := by
  obtain ⟨m, rfl⟩ : ∃ m : Nat, n = (m : Int) := ⟨n.toNat, (Int.toNat_of_nonneg (by omega)).symm⟩
  have hm1 : 1 ≤ m := by exact_mod_cast h1
  have hm99 : m ≤ 99 := by exact_mod_cast h99
  by_cases hm : m ≤ 9
  · have hpad : pad2 (m : Int) = ['0', digitCharC m] := by
      unfold pad2
      rw [intToStr_ofNat, natToStr_one m hm1 hm]
      simp
    rw [hpad] at heq
    simp only [List.cons.injEq, and_true] at heq
    unfold parse2
    rw [← heq.1, ← heq.2, digitVal_digitCharC m hm]
    have h00 : digitVal '0' = 0 := by decide
    rw [h00]
    ring
  · have hx1 : 1 ≤ m / 10 := by omega
    have hx9 : m / 10 ≤ 9 := by omega
    have hy9 : m % 10 ≤ 9 := by omega
    have hdecomp : m = 10 * (m / 10) + m % 10 := by omega
    have hpad : pad2 (m : Int) = [digitCharC (m / 10), digitCharC (m % 10)] := by
      unfold pad2
      rw [intToStr_ofNat]
      have h2 : natToStr m = [digitCharC (m / 10), digitCharC (m % 10)] := by
        conv_lhs => rw [hdecomp]
        exact natToStr_two (m / 10) (m % 10) hx1 hx9 hy9
      rw [h2]
      simp
    rw [hpad] at heq
    simp only [List.cons.injEq, and_true] at heq
    unfold parse2
    rw [← heq.1, ← heq.2, digitVal_digitCharC _ hx9, digitVal_digitCharC _ hy9]
    push_cast
    omega

theorem parse_fmtDate (d : Int) (hacc : parseISODate (fmtDate d) ≠ none) :
    parseISODate (fmtDate d) = some d := by
  cases hp : parseISODate (fmtDate d) with
  | none => exact absurd hp hacc
  | some z =>
      suffices hzd : z = d by rw [hzd]
      unfold parseISODate at hp
      split at hp
      next c1 c2 c3 c4 m1 m2 d1 d2 heq =>
        split_ifs at hp with hdig hrange hciv
        have hz : days_from_civil (parseY c1 c2 c3 c4) (parse2 m1 m2) (parse2 d1 d2) = z :=
          Option.some.inj hp
        have hm0 : 1 ≤ (civil_from_days d).2.1 := (cfd_m_bounds d).1
        have hm12 : (civil_from_days d).2.1 ≤ 12 := (cfd_m_bounds d).2
        have hd0 : 1 ≤ (civil_from_days d).2.2 := (cfd_day_bounds d).1
        have hd31 : (civil_from_days d).2.2 ≤ 31 := (cfd_day_bounds d).2
        have hpadM : (pad2 (civil_from_days d).2.1).length = 2 :=
          pad2_len2 _ (by omega) (by omega)
        have hpadD : (pad2 (civil_from_days d).2.2).length = 2 :=
          pad2_len2 _ (by omega) (by omega)
        unfold fmtDate at heq
        have hlen := congrArg List.length heq
        simp only [List.length_append, List.length_cons, hpadM, hpadD,
          List.length_nil] at hlen
        have hY4 : (intToStr (civil_from_days d).1).length = 4 := by omega
        rw [show ([c1, c2, c3, c4, '-', m1, m2, '-', d1, d2] : Str) =
          ([c1, c2, c3, c4] ++ '-' :: [m1, m2]) ++ '-' :: [d1, d2] from rfl] at heq
        obtain ⟨heqL, heqR⟩ := List.append_inj heq (by simp [hY4, hpadM])
        obtain ⟨heqY, heqM⟩ := List.append_inj heqL (by simp [hY4])
        have heqM2 : pad2 (civil_from_days d).2.1 = [m1, m2] := by
          injection heqM
        have heqD2 : pad2 (civil_from_days d).2.2 = [d1, d2] := by
          injection heqR
        simp only [Bool.and_eq_true] at hdig
        have hYnn : 0 ≤ (civil_from_days d).1 := by
          by_contra hneg
          push_neg at hneg
          have hsplitY : intToStr (civil_from_days d).1 =
              '-' :: natToStr (civil_from_days d).1.natAbs := by
            unfold intToStr
            rw [if_pos hneg]
          rw [hsplitY] at heqY
          simp only [List.cons.injEq] at heqY
          have hd1c : isDigitC c1 = true := hdig.1.1.1.1.1.1.1
          rw [← heqY.1] at hd1c
          exact absurd hd1c (by decide)
        obtain ⟨nY, hnY⟩ : ∃ nn : Nat, (civil_from_days d).1 = (nn : Int) :=
          ⟨_, (Int.toNat_of_nonneg hYnn).symm⟩
        have hlen4 : (natToStr nY).length = 4 := by
          have := hY4
          rw [hnY, intToStr_ofNat] at this
          exact this
        obtain ⟨hn1000, hn9999⟩ := natToStr_len_four nY hlen4
        rw [hnY, intToStr_ofNat] at heqY
        have hsum : 1000 * (nY / 1000) + 100 * (nY / 100 % 10) + 10 * (nY / 10 % 10)
            + nY % 10 = nY := by omega
        have hdig4 : natToStr nY = [digitCharC (nY / 1000), digitCharC (nY / 100 % 10),
            digitCharC (nY / 10 % 10), digitCharC (nY % 10)] := by
          calc natToStr nY
              = natToStr (1000 * (nY / 1000) + 100 * (nY / 100 % 10)
                  + 10 * (nY / 10 % 10) + nY % 10) := by rw [hsum]
            _ = [digitCharC (nY / 1000), digitCharC (nY / 100 % 10),
                  digitCharC (nY / 10 % 10), digitCharC (nY % 10)] :=
                natToStr_four (nY / 1000) (nY / 100 % 10) (nY / 10 % 10) (nY % 10)
                  (by omega) (by omega) (by omega) (by omega) (by omega)
        rw [hdig4] at heqY
        simp only [List.cons.injEq, and_true] at heqY
        obtain ⟨hc1, hc2, hc3, hc4⟩ := heqY
        have hYval : parseY c1 c2 c3 c4 = (civil_from_days d).1 := by
          unfold parseY
          rw [← hc1, ← hc2, ← hc3, ← hc4,
            digitVal_digitCharC (nY / 1000) (by omega),
            digitVal_digitCharC (nY / 100 % 10) (by omega),
            digitVal_digitCharC (nY / 10 % 10) (by omega),
            digitVal_digitCharC (nY % 10) (by omega), hnY]
          push_cast
          omega
        have hMval : parse2 m1 m2 = (civil_from_days d).2.1 :=
          pad2_parse2 _ hm0 (by omega) m1 m2 heqM2
        have hDval : parse2 d1 d2 = (civil_from_days d).2.2 :=
          pad2_parse2 _ hd0 (by omega) d1 d2 heqD2
        rw [hYval, hMval, hDval] at hz
        rw [← hz]
        exact civil_rt d
      next => exact absurd hp (by simp)

theorem linesAux_cons_nl (xs acc : Str) :
    linesAux ('\n' :: xs) acc =
      acc.reverse :: (if xs = [] then [] else linesAux xs []) := by
  simp [linesAux]

theorem linesAux_cons_other (c : Char) (xs acc : Str) (hc : ¬ (c = '\n')) :
    linesAux (c :: xs) acc = linesAux xs (c :: acc) := by
  simp [linesAux, hc]

theorem linesAux_line_nl (line : Str) (h : '\n' ∉ line) :
    ∀ acc, linesAux (line ++ ['\n']) acc = [acc.reverse ++ line] := by
  induction line with
  | nil => intro acc; simp [linesAux]
  | cons c rest ih =>
      intro acc
      have hc : ¬ (c = '\n') := fun hh => h (hh ▸ List.mem_cons_self c rest)
      have hr : '\n' ∉ rest := fun hh => h (List.mem_cons_of_mem c hh)
      rw [List.cons_append, linesAux_cons_other c _ acc hc]
      exact (ih hr (c :: acc)).trans (by simp)

theorem linesAux_split (cs suffix : Str) (hsuf : suffix ≠ []) :
    ∀ acc, linesAux ((cs ++ ['\n']) ++ suffix) acc =
      linesAux (cs ++ ['\n']) acc ++ linesAux suffix [] := by
  induction cs with
  | nil =>
      intro acc
      simp only [List.nil_append, List.singleton_append]
      rw [linesAux_cons_nl suffix acc, linesAux_cons_nl [] acc]
      rw [if_neg hsuf, if_pos rfl]
      simp
  | cons c rest ih =>
      intro acc
      by_cases hc : c = '\n'
      · subst hc
        rw [show ((('\n' :: rest) ++ ['\n']) ++ suffix : Str)
            = '\n' :: ((rest ++ ['\n']) ++ suffix) from by simp]
        rw [show (('\n' :: rest) ++ ['\n'] : Str) = '\n' :: (rest ++ ['\n']) from by simp]
        rw [linesAux_cons_nl _ acc, linesAux_cons_nl _ acc]
        rw [if_neg (by simp), if_neg (by simp)]
        rw [ih []]
        simp
      · rw [show (((c :: rest) ++ ['\n']) ++ suffix : Str)
            = c :: ((rest ++ ['\n']) ++ suffix) from by simp]
        rw [show ((c :: rest) ++ ['\n'] : Str) = c :: (rest ++ ['\n']) from by simp]
        rw [linesAux_cons_other c _ acc hc, linesAux_cons_other c _ acc hc]
        exact ih (c :: acc)

theorem exists_concat_of_getLastQ :
    ∀ (l : Str) (a : Char), l.getLast? = some a → ∃ l2, l = l2 ++ [a] := by
  intro l
  induction l with
  | nil => intro a h; simp at h
  | cons c rest ih =>
      intro a h
      cases rest with
      | nil =>
          simp at h
          exact ⟨[], by rw [h]; rfl⟩
      | cons r rs =>
          rw [List.getLast?_cons_cons] at h
          obtain ⟨l2, hl2⟩ := ih a h
          exact ⟨c :: l2, by rw [List.cons_append, ← hl2]⟩

theorem getLines_append (content line : Str)
    (hend : content = [] ∨ content.getLast? = some '\n') (hnl : '\n' ∉ line) :
    getLines (content ++ (line ++ ['\n'])) = getLines content ++ [line] := by
  rcases hend with rfl | hlast
  · simp only [List.nil_append]
    rw [getLines, if_neg (by simp), linesAux_line_nl line hnl []]
    simp [getLines]
  · obtain ⟨cs, rfl⟩ := exists_concat_of_getLastQ content '\n' hlast
    rw [getLines, if_neg (by simp), getLines, if_neg (by simp)]
    rw [linesAux_split cs (line ++ ['\n']) (by simp) []]
    rw [linesAux_line_nl line hnl []]
    simp

theorem dropWhile_noop {p : Char → Bool} :
    ∀ {l : Str}, (∀ c ∈ l, p c = false) → l.dropWhile p = l := by
  intro l h
  cases l with
  | nil => rfl
  | cons a rest =>
      rw [List.dropWhile_cons, if_neg]
      rw [h a (List.mem_cons_self a rest)]
      simp

theorem trim_noop {s : Str} (h : ∀ c ∈ s, isSpaceC c = false) : trim s = s := by
  unfold trim
  rw [dropWhile_noop h, dropWhile_noop (fun c hc => h c (List.mem_reverse.mp hc)),
    List.reverse_reverse]

theorem mem_dropWhile_of_not {c : Char} {p : Char → Bool} (hp : p c = false) :
    ∀ {l : Str}, c ∈ l → c ∈ l.dropWhile p := by
  intro l
  induction l with
  | nil => simp
  | cons a rest ih =>
      intro hc
      rw [List.dropWhile_cons]
      by_cases ha : p a = true
      · rw [if_pos ha]
        rcases List.mem_cons.mp hc with rfl | hc2
        · rw [hp] at ha
          simp at ha
        · exact ih hc2
      · rw [if_neg ha]
        exact hc

theorem mem_trim_of_not_space {c : Char} {s : Str} (hc : c ∈ s)
    (hns : isSpaceC c = false) : c ∈ trim s := by
  unfold trim
  rw [List.mem_reverse]
  exact mem_dropWhile_of_not hns (List.mem_reverse.mpr (mem_dropWhile_of_not hns hc))

theorem appendLine_chars (r : Rec) :
    ∀ c ∈ appendLine r, c = '\t' ∨ c ∈ fmtDate r.date ∨ c ∈ r.kind ∨ c ∈ r.url ∨
      c ∈ r.title ∨ c ∈ r.tags := by
  intro c hc
  have hjoin : appendLine r = fmtDate r.date
      ++ '\t' :: (r.kind ++ '\t' :: (r.url ++ '\t' :: (r.title ++ '\t' :: r.tags))) := by
    simp [appendLine, joinTabs]
  rw [hjoin] at hc
  rcases List.mem_append.mp hc with h | h
  · exact Or.inr (Or.inl h)
  rcases List.mem_cons.mp h with rfl | h
  · exact Or.inl rfl
  rcases List.mem_append.mp h with h | h
  · exact Or.inr (Or.inr (Or.inl h))
  rcases List.mem_cons.mp h with rfl | h
  · exact Or.inl rfl
  rcases List.mem_append.mp h with h | h
  · exact Or.inr (Or.inr (Or.inr (Or.inl h)))
  rcases List.mem_cons.mp h with rfl | h
  · exact Or.inl rfl
  rcases List.mem_append.mp h with h | h
  · exact Or.inr (Or.inr (Or.inr (Or.inr (Or.inl h))))
  rcases List.mem_cons.mp h with rfl | h
  · exact Or.inl rfl
  · exact Or.inr (Or.inr (Or.inr (Or.inr (Or.inr h))))

/-- C10 counterexample: appending a record to a store content that does not
end in a newline concatenates the new line onto the last existing line, so
the loaded result is a single merged record and not the old records followed
by the new one. -/
theorem c10_counterexample :
    loadInbox (appendInbox c10content c10rec) ≠ loadInbox c10content ++ [c10rec] ∧
    (loadInbox (appendInbox c10content c10rec)).length = 1 := by
  refine ⟨by decide, by decide⟩

/-- C10 (amended): for every store content that is empty or ends in a
newline, and every record whose kind, url, title and tags contain no tab or
newline and whose date formats to a string that parseISODate accepts,
appending then loading yields exactly the records of the old content followed
by the appended record. -/
theorem c10_append_load_roundtrip (content : Str) (r : Rec)
    (hend : content = [] ∨ content.getLast? = some '\n')
    (hk : noTabNl r.kind) (hu : noTabNl r.url) (ht : noTabNl r.title)
    (hg : noTabNl r.tags)
    (hacc : parseISODate (fmtDate r.date) ≠ none) :
    loadInbox (appendInbox content r) = loadInbox content ++ [r] := by
  have hnl : '\n' ∉ appendLine r := by
    intro hmem
    rcases appendLine_chars r '\n' hmem with h | h | h | h | h | h
    · exact absurd h (by decide)
    · have := fmtDate_not_space r.date '\n' h
      simp [isSpaceC] at this
    · exact hk.2 h
    · exact hu.2 h
    · exact ht.2 h
    · exact hg.2 h
  have hlines : getLines (appendInbox content r) = getLines content ++ [appendLine r] := by
    have : appendInbox content r = content ++ (appendLine r ++ ['\n']) := by
      unfold appendInbox
      rw [List.append_assoc]
    rw [this]
    exact getLines_append content (appendLine r) hend hnl
  have hline : parseLine (appendLine r) = some r := by
    have hsplit : splitTabs (appendLine r) =
        [fmtDate r.date, r.kind, r.url, r.title, r.tags] :=
      splitTabs_joinTabs_five _ _ _ _ _ (fmtDate_noTabNl r.date).1 hk.1 hu.1 ht.1 hg.1
    have hdash : '-' ∈ appendLine r := by
      have hjoin : appendLine r = fmtDate r.date
          ++ '\t' :: (r.kind ++ '\t' :: (r.url ++ '\t' :: (r.title ++ '\t' :: r.tags))) := by
        simp [appendLine, joinTabs]
      rw [hjoin]
      apply List.mem_append_left
      unfold fmtDate
      apply List.mem_append_left
      apply List.mem_append_right
      exact List.mem_cons_self _ _
    have htne : trim (appendLine r) ≠ [] :=
      List.ne_nil_of_mem (mem_trim_of_not_space hdash (by decide))
    unfold parseLine
    rw [if_neg htne]
    rw [show (splitTabs (appendLine r)).getD 0 [] = fmtDate r.date from by rw [hsplit]; rfl]
    rw [trim_noop (fmtDate_not_space r.date), parse_fmtDate r.date hacc]
    rw [hsplit]
    rfl
  rw [loadInbox, hlines, List.filterMap_append]
  rw [show loadInbox content = (getLines content).filterMap parseLine from rfl]
  simp [hline]

/-- Witness for C10 at a newline-terminated store content and a clean
record. -/
theorem c10_append_load_roundtrip_witness :
    loadInbox (appendInbox (strL "2024-01-02\tk\tu\tt\tg\n") c10rec) =
      loadInbox (strL "2024-01-02\tk\tu\tt\tg\n") ++ [c10rec] :=
  c10_append_load_roundtrip (strL "2024-01-02\tk\tu\tt\tg\n") c10rec
    (Or.inr (by decide)) (by constructor <;> decide) (by constructor <;> decide)
    (by constructor <;> decide) (by constructor <;> decide) (by decide)

/-! ### C2: filtering and the std::sort model -/

theorem getD_cons_set_perm : ∀ (xs : List Rec) (k : Nat) (x : Rec), k < xs.length →
    List.Perm (xs.getD k defaultRec :: xs.set k x) (x :: xs) := by
  intro xs
  induction xs with
  | nil => intro k x h; simp at h
  | cons a t ih =>
      intro k x h
      cases k with
      | zero =>
          simp only [List.getD_cons_zero, List.set_cons_zero]
          exact List.Perm.swap x a t
      | succ k2 =>
          simp only [List.getD_cons_succ, List.set_cons_succ]
          exact (List.Perm.swap a (t.getD k2 defaultRec) (t.set k2 x)).trans
            (((ih k2 x (by simpa using h)).cons a).trans (List.Perm.swap x a t))

theorem set_set_perm : ∀ (l : List Rec) (i j : Nat), i < l.length → j < l.length →
    List.Perm ((l.set i (lget l j)).set j (lget l i)) l := by
  intro l
  induction l with
  | nil => intro i j hi _; simp at hi
  | cons a t ih =>
      intro i j hi hj
      match i, j with
      | 0, 0 => simp [lget]
      | 0, jj + 1 =>
          simp only [lget, List.getD_cons_succ, List.getD_cons_zero,
            List.set_cons_zero, List.set_cons_succ]
          exact getD_cons_set_perm t jj a (by simpa using hj)
      | ii + 1, 0 =>
          simp only [lget, List.getD_cons_succ, List.getD_cons_zero,
            List.set_cons_zero, List.set_cons_succ]
          exact getD_cons_set_perm t ii a (by simpa using hi)
      | ii + 1, jj + 1 =>
          simp only [lget, List.getD_cons_succ, List.set_cons_succ]
          exact (ih ii jj (by simpa using hi) (by simpa using hj)).cons a

theorem lswap_perm (l : List Rec) (i j : Nat) : List.Perm (lswap l i j) l := by
  unfold lswap
  split_ifs with h
  · exact set_set_perm l i j h.1 h.2
  · exact List.Perm.refl l

theorem moveMedianToFirst_perm (l : List Rec) (res a b c : Nat) :
    List.Perm (moveMedianToFirst l res a b c) l := by
  unfold moveMedianToFirst
  split_ifs <;> exact lswap_perm _ _ _

theorem upart_perm (pv : Rec) : ∀ (fuel : Nat) (l : List Rec) (first last : Nat),
    List.Perm (upart pv l first last fuel).1 l := by
  intro fuel
  induction fuel with
  | zero => intro l first last; exact List.Perm.refl l
  | succ f ih =>
      intro l first last
      simp only [upart]
      split_ifs with h
      · exact (ih _ _ _).trans (lswap_perm _ _ _)
      · exact List.Perm.refl l

theorem partitionPivot_perm (l : List Rec) (lo hi : Nat) :
    List.Perm (partitionPivot l lo hi).1 l := by
  simp only [partitionPivot]
  exact (upart_perm _ _ _ _ _).trans (moveMedianToFirst_perm _ _ _ _ _)

theorem insertByDate_perm (x : Rec) : ∀ l, List.Perm (insertByDate x l) (x :: l) := by
  intro l
  induction l with
  | nil => exact List.Perm.refl _
  | cons y ys ih =>
      unfold insertByDate
      by_cases h : recLt x y = true
      · rw [if_pos h]
      · rw [if_neg h]
        exact (ih.cons y).trans (List.Perm.swap x y ys)

theorem foldl_insert_perm : ∀ (l acc : List Rec),
    List.Perm (l.foldl (fun a x => insertByDate x a) acc) (acc ++ l) := by
  intro l
  induction l with
  | nil => intro acc; simp
  | cons x xs ih =>
      intro acc
      rw [List.foldl_cons]
      exact (ih _).trans (((insertByDate_perm x acc).append_right xs).trans
        List.perm_middle.symm)

theorem insSortByDate_perm (l : List Rec) : List.Perm (insSortByDate l) l := by
  simpa using foldl_insert_perm l []

theorem sortRange_perm (l : List Rec) (lo hi : Nat) :
    List.Perm (sortRange l lo hi) l := by
  unfold sortRange
  split_ifs with h
  · obtain ⟨h1, h2⟩ := h
    have hmid : (l.drop lo).take (hi - lo) ++ l.drop hi = l.drop lo := by
      have hdd : (l.drop lo).drop (hi - lo) = l.drop hi := by
        rw [List.drop_drop]
        congr 1
        omega
      conv_rhs => rw [← List.take_append_drop (hi - lo) (l.drop lo)]
      rw [hdd]
    have p1 : List.Perm
        (l.take lo ++ insSortByDate ((l.drop lo).take (hi - lo)) ++ l.drop hi)
        (l.take lo ++ (l.drop lo).take (hi - lo) ++ l.drop hi) :=
      ((insSortByDate_perm _).append_left (l.take lo)).append_right (l.drop hi)
    have p2 : l.take lo ++ (l.drop lo).take (hi - lo) ++ l.drop hi = l := by
      rw [List.append_assoc, hmid, List.take_append_drop]
    have p3 : List.Perm (l.take lo ++ (l.drop lo).take (hi - lo) ++ l.drop hi) l := by
      rw [p2]
    exact p1.trans p3
  · exact List.Perm.refl l

theorem introLoop_perm : ∀ (fuel : Nat) (l : List Rec) (lo hi depth : Nat),
    List.Perm (introLoop l lo hi depth fuel) l := by
  intro fuel
  induction fuel with
  | zero => intro l lo hi depth; exact List.Perm.refl l
  | succ f ih =>
      intro l lo hi depth
      simp only [introLoop]
      split_ifs with h1 h2
      · exact sortRange_perm l lo hi
      · exact (ih _ _ _ _).trans ((ih _ _ _ _).trans (partitionPivot_perm l lo hi))
      · exact List.Perm.refl l

theorem cppSort_perm (l : List Rec) : List.Perm (cppSort l) l := by
  unfold cppSort
  split_ifs with h
  · rw [h]
  · exact (insSortByDate_perm _).trans (introLoop_perm _ _ _ _ _)

theorem insertByDate_sorted (x : Rec) :
    ∀ {l : List Rec}, l.Pairwise (fun p q => p.date ≤ q.date) →
      (insertByDate x l).Pairwise (fun p q => p.date ≤ q.date) := by
  intro l
  induction l with
  | nil => intro _; simp [insertByDate]
  | cons y ys ih =>
      intro hp
      rw [List.pairwise_cons] at hp
      obtain ⟨hy, hys⟩ := hp
      unfold insertByDate
      by_cases h : recLt x y = true
      · rw [if_pos h]
        unfold recLt at h
        simp only [decide_eq_true_eq] at h
        rw [List.pairwise_cons]
        refine ⟨?_, List.pairwise_cons.mpr ⟨hy, hys⟩⟩
        intro q hq
        rcases List.mem_cons.mp hq with rfl | hq2
        · omega
        · have := hy q hq2
          omega
      · rw [if_neg h]
        unfold recLt at h
        simp only [decide_eq_true_eq] at h
        rw [List.pairwise_cons]
        refine ⟨?_, ih hys⟩
        intro q hq
        rcases List.mem_cons.mp ((insertByDate_perm x ys).mem_iff.mp hq) with rfl | hq2
        · omega
        · exact hy q hq2

theorem foldl_insert_sorted : ∀ (l acc : List Rec),
    acc.Pairwise (fun p q => p.date ≤ q.date) →
    (l.foldl (fun a x => insertByDate x a) acc).Pairwise (fun p q => p.date ≤ q.date) := by
  intro l
  induction l with
  | nil => intro acc h; exact h
  | cons x xs ih =>
      intro acc h
      rw [List.foldl_cons]
      exact ih _ (insertByDate_sorted x h)

theorem insSortByDate_sorted (l : List Rec) :
    (insSortByDate l).Pairwise (fun p q => p.date ≤ q.date) :=
  foldl_insert_sorted l [] (by simp)

theorem cppSort_sorted (l : List Rec) :
    (cppSort l).Pairwise (fun p q => p.date ≤ q.date) := by
  unfold cppSort
  split_ifs with h
  · simp
  · exact insSortByDate_sorted _

/-- C2 counterexample: seventeen records sharing one date, all inside the
range, are reordered by filterByDateRange (the introsort of libstdc++ swaps
equal elements once the range exceeds the insertion-sort threshold of 16),
while the claim demands the input order back (every record is in range, the
dates are equal, and a stable ascending sort of an all-equal list is the
identity); the output is still a permutation of the input of length 17. -/
theorem c2_counterexample :
    filterByDateRange c2recs 0 0 ≠ c2recs ∧
    (filterByDateRange c2recs 0 0).length = 17 ∧
    (filterByDateRange c2recs 0 0).getD 0 defaultRec = c2recs.getD 8 defaultRec := by
  refine ⟨by decide, by decide, by decide⟩

/-- C2 (amended): filterByDateRange returns exactly the records whose date d
satisfies start <= d <= end (both bounds inclusive), as a permutation of the
in-order filtered input, sorted ascending by date; the order of records with
equal dates is not guaranteed (std::sort is not stable). -/
theorem c2_filter_sorted_perm (all : List Rec) (a b : Int) :
    List.Perm (filterByDateRange all a b)
      (all.filter (fun r => decide (a ≤ r.date) && decide (r.date ≤ b))) ∧
    (filterByDateRange all a b).Pairwise (fun x y => x.date ≤ y.date) ∧
    (∀ r : Rec, r ∈ filterByDateRange all a b ↔
      (r ∈ all ∧ a ≤ r.date ∧ r.date ≤ b)) := by
  refine ⟨cppSort_perm _, cppSort_sorted _, ?_⟩
  intro r
  unfold filterByDateRange
  rw [(cppSort_perm _).mem_iff, List.mem_filter]
  simp

/-! ### C4: grouped rendering by tags -/

theorem lexLt_irrefl : ∀ s : Str, lexLt s s = false := by
  intro s
  induction s with
  | nil => rfl
  | cons a rest ih => simp [lexLt, lt_irrefl, ih]

theorem lexLt_trans : ∀ a b c : Str, lexLt a b = true → lexLt b c = true →
    lexLt a c = true := by
  intro a
  induction a with
  | nil =>
      intro b c hab hbc
      cases b with
      | nil => simp [lexLt] at hab
      | cons y ys =>
          cases c with
          | nil => simp [lexLt] at hbc
          | cons z zs => rfl
  | cons x xs ih =>
      intro b c hab hbc
      cases b with
      | nil => simp [lexLt] at hab
      | cons y ys =>
          cases c with
          | nil => simp [lexLt] at hbc
          | cons z zs =>
              simp only [lexLt] at hab hbc ⊢
              by_cases hxy : x < y
              · by_cases hyz : y < z
                · rw [if_pos (lt_trans hxy hyz)]
                · rw [if_neg hyz] at hbc
                  by_cases hzy : z < y
                  · simp [hzy] at hbc
                  · have hyz2 : y = z := le_antisymm (not_lt.mp hzy) (not_lt.mp hyz)
                    rw [if_pos (hyz2 ▸ hxy)]
              · rw [if_neg hxy] at hab
                by_cases hyx : y < x
                · simp [hyx] at hab
                · have hxy2 : x = y := le_antisymm (not_lt.mp hyx) (not_lt.mp hxy)
                  subst hxy2
                  rw [if_neg (lt_irrefl x)] at hab
                  by_cases hyz : x < z
                  · rw [if_pos hyz]
                  · rw [if_neg hyz] at hbc ⊢
                    by_cases hzy : z < x
                    · simp [hzy] at hbc
                    · rw [if_neg hzy] at hbc ⊢
                      exact ih ys zs hab hbc

theorem lexLt_total : ∀ a b : Str, a = b ∨ lexLt a b = true ∨ lexLt b a = true := by
  intro a
  induction a with
  | nil =>
      intro b
      cases b with
      | nil => exact Or.inl rfl
      | cons y ys => exact Or.inr (Or.inl rfl)
  | cons x xs ih =>
      intro b
      cases b with
      | nil => exact Or.inr (Or.inr rfl)
      | cons y ys =>
          by_cases hxy : x < y
          · exact Or.inr (Or.inl (by simp [lexLt, hxy]))
          · by_cases hyx : y < x
            · exact Or.inr (Or.inr (by simp [lexLt, hyx]))
            · have hxy2 : x = y := le_antisymm (not_lt.mp hyx) (not_lt.mp hxy)
              subst hxy2
              rcases ih ys with h | h | h
              · exact Or.inl (by rw [h])
              · exact Or.inr (Or.inl (by simp [lexLt, lt_irrefl, h]))
              · exact Or.inr (Or.inr (by simp [lexLt, lt_irrefl, h]))

theorem insertTag_keys (m : List (Str × List Rec)) (k : Str) (r : Rec) :
    ∀ q ∈ insertTag m k r, q.1 = k ∨ q.1 ∈ m.map Prod.fst := by
  induction m with
  | nil =>
      intro q hq
      simp [insertTag] at hq
      rw [hq]
      exact Or.inl rfl
  | cons p rest ih =>
      intro q hq
      obtain ⟨k1, v⟩ := p
      unfold insertTag at hq
      split_ifs at hq with h1 h2
      · rcases List.mem_cons.mp hq with rfl | hq2
        · exact Or.inr (by simp only [List.map_cons]; exact List.mem_cons_self _ _)
        · exact Or.inr (by
            simp only [List.map_cons]
            exact List.mem_cons_of_mem _ (List.mem_map_of_mem Prod.fst hq2))
      · rcases List.mem_cons.mp hq with rfl | hq2
        · exact Or.inl rfl
        · rcases List.mem_cons.mp hq2 with rfl | hq3
          · exact Or.inr (by simp only [List.map_cons]; exact List.mem_cons_self _ _)
          · exact Or.inr (by
              simp only [List.map_cons]
              exact List.mem_cons_of_mem _ (List.mem_map_of_mem Prod.fst hq3))
      · rcases List.mem_cons.mp hq with rfl | hq2
        · exact Or.inr (by simp only [List.map_cons]; exact List.mem_cons_self _ _)
        · rcases ih q hq2 with h | h
          · exact Or.inl h
          · exact Or.inr (by
              simp only [List.map_cons]
              exact List.mem_cons_of_mem _ h)

theorem insertTag_sorted (m : List (Str × List Rec)) (k : Str) (r : Rec)
    (hs : m.Pairwise (fun p q => lexLt p.1 q.1 = true)) :
    (insertTag m k r).Pairwise (fun p q => lexLt p.1 q.1 = true) := by
  induction m with
  | nil => simp [insertTag]
  | cons p rest ih =>
      obtain ⟨k1, v⟩ := p
      rw [List.pairwise_cons] at hs
      obtain ⟨hhead, htail⟩ := hs
      unfold insertTag
      split_ifs with h1 h2
      · rw [List.pairwise_cons]
        exact ⟨hhead, htail⟩
      · rw [List.pairwise_cons]
        constructor
        · intro q hq
          rcases List.mem_cons.mp hq with rfl | hq2
          · exact h2
          · exact lexLt_trans k k1 q.1 h2 (hhead q hq2)
        · rw [List.pairwise_cons]
          exact ⟨hhead, htail⟩
      · rw [List.pairwise_cons]
        constructor
        · intro q hq
          rcases insertTag_keys rest k r q hq with h | h
          · rw [h]
            rcases lexLt_total k k1 with heq | hlt | hgt
            · exact absurd heq.symm h1
            · exact absurd hlt h2
            · exact hgt
          · rw [List.mem_map] at h
            obtain ⟨q2, hq2, hq2e⟩ := h
            rw [← hq2e]
            exact hhead q2 hq2
        · exact ih htail

theorem lookupTag_nil_of_not_mem (k : Str) :
    ∀ m : List (Str × List Rec), (∀ q ∈ m, q.1 ≠ k) → lookupTag m k = [] := by
  intro m
  induction m with
  | nil => intro _; rfl
  | cons p rest ih =>
      intro h
      obtain ⟨k1, v⟩ := p
      unfold lookupTag
      rw [if_neg (h (k1, v) (List.mem_cons_self _ _))]
      exact ih (fun q hq => h q (List.mem_cons_of_mem _ hq))

theorem lookup_insertTag (k : Str) (r : Rec) (k2 : Str) :
    ∀ m : List (Str × List Rec), m.Pairwise (fun p q => lexLt p.1 q.1 = true) →
    lookupTag (insertTag m k r) k2 =
      if k2 = k then lookupTag m k2 ++ [r] else lookupTag m k2 := by
  intro m
  induction m with
  | nil =>
      intro _
      by_cases hk : k2 = k
      · rw [if_pos hk]
        simp only [insertTag, lookupTag, if_pos hk.symm]
        simp
      · rw [if_neg hk]
        simp only [insertTag, lookupTag, if_neg (fun h : k = k2 => hk h.symm)]
  | cons p rest ih =>
      intro hs
      obtain ⟨k1, v⟩ := p
      rw [List.pairwise_cons] at hs
      obtain ⟨hhead, htail⟩ := hs
      by_cases h1 : k1 = k
      · rw [show insertTag ((k1, v) :: rest) k r = (k1, v ++ [r]) :: rest from by
          unfold insertTag; rw [if_pos h1]]
        by_cases hk : k1 = k2
        · have hk2 : k2 = k := by rw [← hk, h1]
          rw [if_pos hk2]
          simp only [lookupTag, if_pos hk]
        · have hk2 : ¬ (k2 = k) := fun h => hk (by rw [h1, ← h])
          rw [if_neg hk2]
          simp only [lookupTag, if_neg hk]
      · by_cases h2 : lexLt k k1 = true
        · rw [show insertTag ((k1, v) :: rest) k r = (k, [r]) :: (k1, v) :: rest from by
            unfold insertTag; rw [if_neg h1, if_pos h2]]
          by_cases hk : k2 = k
          · have hnil : lookupTag ((k1, v) :: rest) k2 = [] := by
              apply lookupTag_nil_of_not_mem
              intro q hq
              rcases List.mem_cons.mp hq with rfl | hq2
              · intro hq1
                apply h1
                have hq1e : k1 = k2 := hq1
                rw [hq1e, hk]
              · intro hqk
                have hk1q := hhead q hq2
                rw [hqk, hk] at hk1q
                have hirr := lexLt_trans k k1 k h2 hk1q
                rw [lexLt_irrefl] at hirr
                exact absurd hirr (by simp)
            rw [if_pos hk, hnil]
            simp only [lookupTag, if_pos hk.symm]
            simp
          · rw [if_neg hk]
            simp only [lookupTag, if_neg (fun h : k = k2 => hk h.symm)]
        · rw [show insertTag ((k1, v) :: rest) k r = (k1, v) :: insertTag rest k r from by
            unfold insertTag
            rw [if_neg h1, if_neg h2]
            cases rest with
            | nil => rfl
            | cons q qs => rfl]
          by_cases hk1 : k1 = k2
          · have hne : ¬ (k2 = k) := fun h => h1 (by rw [hk1, h])
            rw [if_neg hne]
            simp only [lookupTag, if_pos hk1]
          · simp only [lookupTag, if_neg hk1]
            exact ih htail

theorem wordsAux_tokens : ∀ (s acc : Str), (∀ c ∈ acc, isSpaceC c = false) →
    ∀ t ∈ wordsAux s acc, t ≠ [] ∧ ∀ c ∈ t, isSpaceC c = false := by
  intro s
  induction s with
  | nil =>
      intro acc hacc t ht
      unfold wordsAux at ht
      split_ifs at ht with h
      · simp at ht
      · simp only [List.mem_singleton] at ht
        subst ht
        refine ⟨fun hn => h (by simpa using congrArg List.reverse hn), ?_⟩
        intro c hc
        exact hacc c (List.mem_reverse.mp hc)
  | cons c0 rest ih =>
      intro acc hacc t ht
      unfold wordsAux at ht
      split_ifs at ht with hsp hae
      · exact ih [] (by simp) t ht
      · rcases List.mem_cons.mp ht with rfl | ht2
        · refine ⟨fun hn => hae (by simpa using congrArg List.reverse hn), ?_⟩
          intro c hc
          exact hacc c (List.mem_reverse.mp hc)
        · exact ih [] (by simp) t ht2
      · refine ih (c0 :: acc) ?_ t ht
        intro c hc
        rcases List.mem_cons.mp hc with rfl | hc2
        · simpa using hsp
        · exact hacc c hc2

theorem splitTags_tokens (s t : Str) (ht : t ∈ splitTags s) :
    t ≠ [] ∧ ∀ c ∈ t, isSpaceC c = false :=
  wordsAux_tokens s [] (by simp) t ht

theorem normTag_ne_nil (t : Str) (hne : t ≠ []) (hns : ∀ c ∈ t, isSpaceC c = false) :
    normalizeTagDisplayOne t ≠ [] := by
  unfold normalizeTagDisplayOne
  rw [trim_noop hns]
  cases t with
  | nil => exact absurd rfl hne
  | cons c rest =>
      by_cases hh : c = '#'
      · simp only [hh]
        split_ifs <;> simp_all <;> split <;> simp
      · simp only [if_neg hh]
        split_ifs with hcaps
        · simp [hh]
        · simp [hh]

theorem lookup_foldTags (r : Rec) (k2 : Str) :
    ∀ (tags : List Str) (m : List (Str × List Rec)),
    m.Pairwise (fun p q => lexLt p.1 q.1 = true) →
    (∀ t ∈ tags, normalizeTagDisplayOne t ≠ []) →
    (tags.foldl
        (fun m t => if normalizeTagDisplayOne t = [] then m
                    else insertTag m (normalizeTagDisplayOne t) r) m).Pairwise
        (fun p q => lexLt p.1 q.1 = true) ∧
    lookupTag (tags.foldl
        (fun m t => if normalizeTagDisplayOne t = [] then m
                    else insertTag m (normalizeTagDisplayOne t) r) m) k2 =
      lookupTag m k2 ++
        ((tags.filter (fun t => decide (normalizeTagDisplayOne t = k2))).map
          (fun _ => r)) := by
  intro tags
  induction tags with
  | nil => intro m hs _; exact ⟨hs, by simp⟩
  | cons t rest ih =>
      intro m hs hne
      have hnt : normalizeTagDisplayOne t ≠ [] := hne t (by simp)
      have hrest : ∀ t2 ∈ rest, normalizeTagDisplayOne t2 ≠ [] := by
        intro t2 h2
        exact hne t2 (by simp [h2])
      simp only [List.foldl_cons, if_neg hnt]
      have hs2 := insertTag_sorted m (normalizeTagDisplayOne t) r hs
      obtain ⟨ih1, ih2⟩ := ih (insertTag m (normalizeTagDisplayOne t) r) hs2 hrest
      refine ⟨ih1, ?_⟩
      rw [ih2, lookup_insertTag (normalizeTagDisplayOne t) r k2 m hs]
      by_cases hk : normalizeTagDisplayOne t = k2
      · rw [if_pos hk.symm]
        simp [List.filter_cons, hk, List.append_assoc]
      · rw [if_neg (fun h => hk h.symm)]
        simp [List.filter_cons, hk]

theorem byTag_aux (k2 : Str) :
    ∀ (rows : List Rec) (m : List (Str × List Rec)),
    m.Pairwise (fun p q => lexLt p.1 q.1 = true) →
    (rows.foldl addRecTags m).Pairwise (fun p q => lexLt p.1 q.1 = true) ∧
    lookupTag (rows.foldl addRecTags m) k2 =
      lookupTag m k2 ++
        rows.flatMap (fun r =>
          ((splitTags r.tags).filter
            (fun t => decide (normalizeTagDisplayOne t = k2))).map (fun _ => r)) := by
  intro rows
  induction rows with
  | nil => intro m hs; exact ⟨hs, by simp⟩
  | cons r rest ih =>
      intro m hs
      have hne : ∀ t ∈ splitTags r.tags, normalizeTagDisplayOne t ≠ [] := by
        intro t ht
        obtain ⟨h1, h2⟩ := splitTags_tokens r.tags t ht
        exact normTag_ne_nil t h1 h2
      obtain ⟨f1, f2⟩ := lookup_foldTags r k2 (splitTags r.tags) m hs hne
      simp only [List.foldl_cons]
      obtain ⟨ih1, ih2⟩ := ih (addRecTags m r) f1
      refine ⟨ih1, ?_⟩
      rw [ih2]
      have f2e : lookupTag (addRecTags m r) k2 =
          lookupTag m k2 ++
            ((splitTags r.tags).filter
              (fun t => decide (normalizeTagDisplayOne t = k2))).map (fun _ => r) := f2
      rw [f2e]
      simp [List.append_assoc]

theorem lookup_mem : ∀ (m : List (Str × List Rec)),
    m.Pairwise (fun p q => lexLt p.1 q.1 = true) →
    ∀ p ∈ m, lookupTag m p.1 = p.2 := by
  intro m
  induction m with
  | nil =>
      intro _ p hp
      simp at hp
  | cons q rest ih =>
      intro hs p hp
      obtain ⟨k1, v⟩ := q
      obtain ⟨hhead, htail⟩ := List.pairwise_cons.mp hs
      rcases List.mem_cons.mp hp with rfl | hp2
      · simp [lookupTag]
      · have hlt : lexLt k1 p.1 = true := hhead p hp2
        have hne : k1 ≠ p.1 := by
          intro he
          rw [he, lexLt_irrefl] at hlt
          exact absurd hlt (by simp)
        simp only [lookupTag, if_neg hne]
        exact ih htail p hp2

theorem insertTag_values (k : Str) (r : Rec) :
    ∀ m : List (Str × List Rec), (∀ q ∈ m, q.2 ≠ []) →
    ∀ q ∈ insertTag m k r, q.2 ≠ [] := by
  intro m
  induction m with
  | nil =>
      intro _ q hq
      simp only [insertTag, List.mem_singleton] at hq
      subst hq
      simp
  | cons p rest ih =>
      obtain ⟨k1, v⟩ := p
      intro hm q hq
      simp only [insertTag] at hq
      split_ifs at hq with h1 h2
      · rcases List.mem_cons.mp hq with rfl | hq2
        · simp
        · exact hm q (by simp [hq2])
      · rcases List.mem_cons.mp hq with rfl | hq2
        · simp
        · exact hm q hq2
      · rcases List.mem_cons.mp hq with rfl | hq2
        · exact hm (k1, v) (by simp)
        · exact ih (fun q2 hq3 => hm q2 (by simp [hq3])) q hq2

theorem foldTags_values (r : Rec) :
    ∀ (tags : List Str) (m : List (Str × List Rec)), (∀ q ∈ m, q.2 ≠ []) →
    ∀ q ∈ tags.foldl
        (fun m t => if normalizeTagDisplayOne t = [] then m
                    else insertTag m (normalizeTagDisplayOne t) r) m, q.2 ≠ [] := by
  intro tags
  induction tags with
  | nil => intro m hm; exact hm
  | cons t rest ih =>
      intro m hm
      simp only [List.foldl_cons]
      by_cases hn : normalizeTagDisplayOne t = []
      · rw [if_pos hn]
        exact ih m hm
      · rw [if_neg hn]
        exact ih _ (insertTag_values _ r m hm)

theorem byTag_values :
    ∀ (rows : List Rec) (m : List (Str × List Rec)), (∀ q ∈ m, q.2 ≠ []) →
    ∀ q ∈ rows.foldl addRecTags m, q.2 ≠ [] := by
  intro rows
  induction rows with
  | nil => intro m hm; exact hm
  | cons r rest ih =>
      intro m hm
      simp only [List.foldl_cons]
      have hstep : ∀ q ∈ addRecTags m r, q.2 ≠ [] :=
        foldTags_values r (splitTags r.tags) m hm
      exact ih _ hstep

theorem insertTag_ne_nil (m : List (Str × List Rec)) (k : Str) (r : Rec) :
    insertTag m k r ≠ [] := by
  cases m with
  | nil => simp [insertTag]
  | cons p rest =>
      obtain ⟨k1, v⟩ := p
      simp only [insertTag]
      split_ifs <;> simp

theorem foldTags_ne_nil (r : Rec) :
    ∀ (tags : List Str) (m : List (Str × List Rec)), m ≠ [] →
    tags.foldl
        (fun m t => if normalizeTagDisplayOne t = [] then m
                    else insertTag m (normalizeTagDisplayOne t) r) m ≠ [] := by
  intro tags
  induction tags with
  | nil => intro m hm; exact hm
  | cons t rest ih =>
      intro m hm
      simp only [List.foldl_cons]
      by_cases hn : normalizeTagDisplayOne t = []
      · rw [if_pos hn]
        exact ih m hm
      · rw [if_neg hn]
        exact ih _ (insertTag_ne_nil m _ r)

theorem addRecTags_ne_nil_of (m : List (Str × List Rec)) (r : Rec) (hm : m ≠ []) :
    addRecTags m r ≠ [] := foldTags_ne_nil r (splitTags r.tags) m hm

theorem addRecTags_ne_nil_tok (m : List (Str × List Rec)) (r : Rec)
    (ht : splitTags r.tags ≠ []) : addRecTags m r ≠ [] := by
  unfold addRecTags
  cases hts : splitTags r.tags with
  | nil => exact absurd hts ht
  | cons t ts =>
      have htok := splitTags_tokens r.tags t (by rw [hts]; simp)
      have hn : normalizeTagDisplayOne t ≠ [] := normTag_ne_nil t htok.1 htok.2
      simp only [List.foldl_cons, if_neg hn]
      exact foldTags_ne_nil r ts _ (insertTag_ne_nil m _ r)

theorem fold_addRecTags_ne_nil :
    ∀ (rows : List Rec) (m : List (Str × List Rec)),
    (m ≠ [] ∨ ∃ r ∈ rows, splitTags r.tags ≠ []) →
    rows.foldl addRecTags m ≠ [] := by
  intro rows
  induction rows with
  | nil =>
      intro m hm
      rcases hm with hm | ⟨r, hr, _⟩
      · exact hm
      · simp at hr
  | cons r rest ih =>
      intro m hm
      simp only [List.foldl_cons]
      rcases hm with hm | ⟨r2, hr2, htag⟩
      · exact ih _ (Or.inl (addRecTags_ne_nil_of m r hm))
      · rcases List.mem_cons.mp hr2 with rfl | hr3
        · exact ih _ (Or.inl (addRecTags_ne_nil_tok m r2 htag))
        · exact ih _ (Or.inr ⟨r2, hr3, htag⟩)

theorem addRecTags_empty (m : List (Str × List Rec)) (r : Rec)
    (ht : splitTags r.tags = []) : addRecTags m r = m := by
  unfold addRecTags
  rw [ht]
  rfl

theorem fold_addRecTags_id :
    ∀ (rows : List Rec) (m : List (Str × List Rec)),
    (∀ r ∈ rows, splitTags r.tags = []) → rows.foldl addRecTags m = m := by
  intro rows
  induction rows with
  | nil => intro m _; rfl
  | cons r rest ih =>
      intro m hall
      simp only [List.foldl_cons]
      rw [addRecTags_empty m r (hall r (by simp))]
      exact ih m (fun r2 h2 => hall r2 (by simp [h2]))

theorem byTag_nil_iff (rows : List Rec) :
    byTag rows = [] ↔ ∀ r ∈ rows, splitTags r.tags = [] := by
  constructor
  · intro h
    by_contra hc
    push_neg at hc
    obtain ⟨r, hr, ht⟩ := hc
    exact fold_addRecTags_ne_nil rows [] (Or.inr ⟨r, hr, ht⟩) h
  · intro hall
    exact fold_addRecTags_id rows [] hall

/-- C4 counterexample: the record with tag string "#a #A" carries two distinct
tag tokens, yet both normalize to the display form "#A", so the grouped map
has a single heading under which the record appears twice - not "once under a
heading for every tag it carries". -/
theorem c4_counterexample :
    (byTag [c4rec]).map (fun p => (p.1, p.2.length)) = [(strL "#A", 2)] ∧
    lookupTag (byTag [c4rec]) (strL "#A") = [c4rec, c4rec] :=
  ⟨by decide, by decide⟩

/-- C4 (amended): grouped rendering builds its map with one entry per tag
token of each record, keyed by the token's normalized display form: headings
are strictly sorted lexicographically; the vector of a key lists, in filtered
input order, one copy of each record per tag token normalizing to that key
(so two tokens of one record with equal displays yield the record twice under
one heading, refuting "once per tag"); every heading's vector is nonempty and
is exactly what lookup by that heading returns; the map is empty exactly when
no record carries a tag token, and then the placeholder text is emitted. -/
theorem c4_grouped_rendering (rows : List Rec) :
    (byTag rows).Pairwise (fun p q => lexLt p.1 q.1 = true) ∧
    (∀ k, lookupTag (byTag rows) k =
      rows.flatMap (fun r =>
        ((splitTags r.tags).filter
          (fun t => decide (normalizeTagDisplayOne t = k))).map (fun _ => r))) ∧
    (∀ p ∈ byTag rows, p.2 ≠ [] ∧ lookupTag (byTag rows) p.1 = p.2) ∧
    (byTag rows = [] ↔ ∀ r ∈ rows, splitTags r.tags = []) ∧
    ((∀ r ∈ rows, splitTags r.tags = []) →
      renderGroupedByTagsMarkdown rows = strL "## By Tag\n\n(No tags in range)\n") := by
  have hsorted : (byTag rows).Pairwise (fun p q => lexLt p.1 q.1 = true) :=
    (byTag_aux [] rows [] (by simp)).1
  refine ⟨hsorted, ?_, ?_, byTag_nil_iff rows, ?_⟩
  · intro k
    have h2 : lookupTag (byTag rows) k =
        lookupTag ([] : List (Str × List Rec)) k ++
          rows.flatMap (fun r =>
            ((splitTags r.tags).filter
              (fun t => decide (normalizeTagDisplayOne t = k))).map (fun _ => r)) :=
      (byTag_aux k rows [] (by simp)).2
    simpa [lookupTag] using h2
  · intro p hp
    have hv : ∀ q ∈ byTag rows, q.2 ≠ [] := byTag_values rows [] (by simp)
    exact ⟨hv p hp, lookup_mem (byTag rows) hsorted p hp⟩
  · intro hall
    have hb : byTag rows = [] := (byTag_nil_iff rows).mpr hall
    unfold renderGroupedByTagsMarkdown
    rw [hb]
    decide

theorem c4_grouped_rendering_witness :
    renderGroupedByTagsMarkdown
        [({ date := 0, kind := strL "link", url := strL "u", title := strL "t",
            tags := [] } : Rec)] =
      strL "## By Tag\n\n(No tags in range)\n" :=
  (c4_grouped_rendering
      [({ date := 0, kind := strL "link", url := strL "u", title := strL "t",
          tags := [] } : Rec)]).2.2.2.2 (by decide)
